import Mathlib

/-!
Verification of the skim Lisp core (reader, value model, environment chain,
evaluator, closures) against its design document.  The Go sources are embedded
shallowly: Go interface values of type `skim.Atom` become the inductive `Atom`
(with explicit constructors for the `nil` interface, typed-nil pointers and the
`unbound` tombstone sentinel), `*interp.Context` chains become the inductive
`Ctx`, Go maps become association lists with single-entry-per-key update, and
fallible operations return explicit result types.  Where a Go file in the
repository contains two concatenated revisions of a package, the later
revision (the one with `Unbound`, `Dup`, `Overlay` and `Vector` support) is
the one embedded, matching the line ranges the claims cite.
-/

set_option autoImplicit false

namespace Skim

mutual

/-- `skim.Atom` (lisp/skim/atoms.go, second revision) together with the values
of the other packages that flow through it: `interp.unbound` (the tombstone
sentinel), `interp.Proc` (opaque primitive callables, identified by an id whose
behaviour is supplied externally to `Eval`), and `builtins.Lambda` closures.
`nilA` is the nil `Atom` interface value; `consNil` is a typed-nil `*Cons`
(distinct from `nilA`, as the Go comments stress); `cell car cdr` is a non-nil
`*Cons`.  `float` carries the source token: the IEEE-754 payload is abstracted
as the (deterministic) image of the token text, which is finer than the Go
value and therefore sound for every equality proved here. -/
inductive Atom : Type where
  | nilA
  | int (i : Int)
  | float (tok : String)
  | sym (s : String)
  | str (s : String)
  | bool (b : Bool)
  | consNil
  | cell (car cdr : Atom)
  | vecNil
  | vec (elems : List Atom)
  | unbound
  | prim (id : Nat)
  | lambda (args : List String) (body : Atom) (captured : Ctx)

/-- `*interp.Context` (lisp/interp/context.go, second revision): a frame owns a
binding table, an upvalue table (opaque values, modelled by their identity as a
`Nat`), and a parent pointer.  `nilCtx` is the nil `*Context`. -/
inductive Ctx : Type where
  | nilCtx
  | frame (table : List (String × Atom)) (upval : List (String × Nat)) (up : Ctx)

end

/-- Go map read `t[k]`: the single entry for `k`, if present. -/
def tget (t : List (String × Atom)) (k : String) : Option Atom :=
  match t with
  | [] => none
  | (k', v) :: r => if k' = k then some v else tget r k

/-- Go map write `t[k] = v`: replaces the entry for `k` in place, else appends. -/
def tset (t : List (String × Atom)) (k : String) (v : Atom) : List (String × Atom) :=
  match t with
  | [] => [(k, v)]
  | (k', v') :: r => if k' = k then (k, v) :: r else (k', v') :: tset r k v

/-- First-or-none on options, used to state resolution facts. -/
def ora (a b : Option Atom) : Option Atom :=
  match a with
  | some v => some v
  | none => b

/-- `Context.Fork`: a new empty frame whose parent is the receiver. -/
def Ctx.Fork (c : Ctx) : Ctx := .frame [] [] c

/-- `NewContext()`: `(*Context).Fork(nil)`. -/
def NewContext : Ctx := Ctx.Fork .nilCtx

/-- `Context.Bind`: insert/overwrite in this frame's own table (nil receiver is
a no-op returning nil, per the `if c == nil` guard). -/
def Ctx.Bind (c : Ctx) (k : String) (v : Atom) : Ctx :=
  match c with
  | .nilCtx => .nilCtx
  | .frame t u up => .frame (tset t k v) u up

/-- `Context.Unbind`: if the symbol is present in this frame's own table,
overwrite it with the `Unbound` tombstone and report true; otherwise report
false and change nothing.  The returned pair is (reported bool, new context). -/
def Ctx.Unbind (c : Ctx) (k : String) : Bool × Ctx :=
  match c with
  | .nilCtx => (false, .nilCtx)
  | .frame t u up =>
    match tget t k with
    | some _ => (true, .frame (tset t k .unbound) u up)
    | none => (false, .frame t u up)

/-- `resolveInTable`: look the symbol up in one table; the first component says
whether the table binds it at all, the second is the visible value (`none` when
the entry is the `Unbound` tombstone, occluding the chain). -/
def resolveInTable (k : String) (t : List (String × Atom)) : Bool × Option Atom :=
  match tget t k with
  | none => (false, none)
  | some v =>
    match v with
    | .unbound => (true, none)
    | _ => (true, some v)

/-- `Context.Resolve`: walk the chain; a frame that binds the symbol (live or
tombstoned) ends the search. -/
def Ctx.Resolve (c : Ctx) (k : String) : Option Atom :=
  match c with
  | .nilCtx => none
  | .frame t _ up =>
    match resolveInTable k t with
    | (true, v) => v
    | (false, _) => up.Resolve k

/-- The per-frame insertion loop of `Context.Dup`: each entry of the frame's
table is copied into the accumulator unless it is the `Unbound` tombstone or
the key was already copied from an inner frame. -/
def dupInsert (acc : List (String × Atom)) (t : List (String × Atom)) :
    List (String × Atom) :=
  match t with
  | [] => acc
  | (k, v) :: r =>
    match v with
    | .unbound => dupInsert acc r
    | _ =>
      match tget acc k with
      | some _ => dupInsert acc r
      | none => dupInsert (tset acc k v) r

/-- The frame loop of `Context.Dup`: innermost frame first. -/
def dupLoop (c : Ctx) (acc : List (String × Atom)) : List (String × Atom) :=
  match c with
  | .nilCtx => acc
  | .frame t _ up => dupLoop up (dupInsert acc t)

/-- `Context.Dup`: flatten the chain into one parent-less frame holding, for
each symbol, the first non-tombstone entry found walking inward-out, plus the
receiver's own upvalues.  (The Go code faults on a nil receiver; no call site
passes one.) -/
def Ctx.Dup (c : Ctx) : Ctx :=
  let upv := match c with | .nilCtx => [] | .frame _ u _ => u
  .frame (dupLoop c []) upv .nilCtx

/-- `Context.Overlay`: `Dup` then reparent onto `parent`. -/
def Ctx.Overlay (c parent : Ctx) : Ctx :=
  match c.Dup with
  | .nilCtx => .nilCtx
  | .frame t u _ => .frame t u parent

/-- Table of a context's own frame (empty for nil). -/
def Ctx.tableOf (c : Ctx) : List (String × Atom) :=
  match c with
  | .nilCtx => []
  | .frame t _ _ => t

/-- Parent of a context's own frame (nil for nil). -/
def Ctx.upOf (c : Ctx) : Ctx :=
  match c with
  | .nilCtx => .nilCtx
  | .frame _ _ up => up

/-- Specification-side reading of what `Dup` computes per symbol: the first
entry for the symbol, scanning the chain inward-out and each table front to
back, that is not the `Unbound` tombstone.  Tombstone entries are skipped (not
occluding), unlike in `Resolve`. -/
def findLive (t : List (String × Atom)) (k : String) : Option Atom :=
  match t with
  | [] => none
  | (k', v) :: r =>
    if k' = k then
      match v with
      | .unbound => findLive r k
      | _ => some v
    else findLive r k

/-- Chain-level version of `findLive`. -/
def resolveSkip (c : Ctx) (k : String) : Option Atom :=
  match c with
  | .nilCtx => none
  | .frame t _ up => ora (findLive t k) (resolveSkip up k)

/-- Environments for the concrete occlusion scenario: frame `A` binds `x = 1`. -/
def ctxA : Ctx := NewContext.Bind "x" (.int 1)

/-- The reachable chain for the C2 counterexample: parent binds `x = 1`; the
child binds `x = 2` and then unbinds it, so the child's own entry for `x` is
the tombstone. -/
def ctxTomb : Ctx := (((NewContext.Bind "x" (.int 1)).Fork.Bind "x" (.int 2)).Unbind "x").2

/-! ## Structural operations of the `skim` package (lisp/skim/atoms.go) -/

/-- The text Go's `%T` verb prints for each dynamic type reaching an `Atom`
interface value, used verbatim inside error messages. -/
def typeName : Atom → String
  | .nilA => "<nil>"
  | .int _ => "skim.Int"
  | .float _ => "skim.Float"
  | .sym _ => "skim.Symbol"
  | .str _ => "skim.String"
  | .bool _ => "skim.Bool"
  | .consNil => "*skim.Cons"
  | .cell _ _ => "*skim.Cons"
  | .vecNil => "skim.Vector"
  | .vec _ => "skim.Vector"
  | .unbound => "interp.unbound"
  | .prim _ => "interp.Proc"
  | .lambda _ _ _ => "*builtins.Lambda"

/-- `skim.IsNil`: the nil interface, a typed-nil `*Cons`, and the sentinel cons
cell with both slots nil are all "nil". -/
def IsNil : Atom → Bool
  | .nilA => true
  | .consNil => true
  | .cell car cdr =>
    match car, cdr with
    | .nilA, .nilA => true
    | _, _ => false
  | _ => false

/-- Result of `skim.Walk`: normal completion, the first error the visitor
returned, the typed cannot-walk error, or a Go runtime fault (nil-pointer
dereference on a typed-nil `*Cons` in the chain). -/
inductive WalkRes : Type where
  | ok
  | errW (msg : String)
  | panicked

/-- The list arm of `skim.Walk`: visit each `Car` until the `Cdr` is nil or
the both-slots-nil sentinel cons. -/
def walkList (fn : Atom → Option String) : Atom → WalkRes
  | .nilA => .ok
  | .consNil => .panicked
  | .cell car cdr =>
    match car, cdr with
    | .nilA, .nilA => .ok
    | car, cdr =>
      match fn car with
      | some e => .errW e
      | none => walkList fn cdr
  | other => .errW ("skim: cannot walk " ++ typeName other)

/-- The vector arm of `skim.Walk`: visit each element in order. -/
def walkVec (fn : Atom → Option String) : List Atom → WalkRes
  | [] => .ok
  | x :: xs =>
    match fn x with
    | some e => .errW e
    | none => walkVec fn xs

/-- `skim.Walk` (second revision, with the `Vector` branch).  The visitor
returns `some msg` for an error and `none` for success. -/
def Walk (a : Atom) (fn : Atom → Option String) : WalkRes :=
  match a with
  | .vecNil => .ok
  | .vec xs => walkVec fn xs
  | a => walkList fn a

/-- The non-empty chain builder inside `skim.List`: cells linked in order, the
last cell's `Cdr` left as the nil interface. -/
def buildList : List Atom → Atom
  | [] => .nilA
  | [x] => .cell x .nilA
  | x :: xs => .cell x (buildList xs)

/-- `skim.List`: zero arguments yield the canonical empty-list cons `&Cons{}`;
otherwise a proper chain of the arguments. -/
def list (args : List Atom) : Atom :=
  match args with
  | [] => .cell .nilA .nilA
  | _ => buildList args

/-- `skim.MapFunc` together with its nil-ness: `MapFunc.Map` reports
"skim: MapFunc is nil" when the function value is nil. -/
def MapFunc : Type := Option (Atom → Except String Atom)

/-- `MapFunc.Map` (lisp/skim/atoms.go): nil check, then the call. -/
def fnMap (fn : MapFunc) (a : Atom) : Except String Atom :=
  match fn with
  | none => .error "skim: MapFunc is nil"
  | some f => f a

/-- Result of the `Map` family: a mapped atom, an error, or a Go runtime fault
(nil dereference while counting a chain that ends in a typed-nil `*Cons`). -/
inductive MapRes : Type where
  | ok (a : Atom)
  | errS (msg : String)
  | panicked

/-- Result of the cell-counting loop of `Cons.Map`. -/
inductive CntRes : Type where
  | okC (n : Nat)
  | errC (tname : String)
  | panickedC

/-- The ignored-failure type assertion `c, _ = c.Cdr.(*Cons)`: a cell stays a
cell, everything else (nil interface, typed nil, non-cons) leaves the nil
pointer behind. -/
def toPtr : Atom → Option (Atom × Atom)
  | .cell car cdr => some (car, cdr)
  | _ => none

/-- The cell-counting loop of `Cons.Map`, starting from the first cell's `Cdr`
with count 1: stops at a nil-interface `Cdr`, faults after stepping onto a
typed-nil `*Cons`, errors on any other non-`*Cons` `Cdr`. -/
def cntLoop : Atom → Nat → CntRes
  | .nilA, n => .okC n
  | .consNil, _ => .panickedC
  | .cell _ cdr, n => cntLoop cdr (n + 1)
  | other, _ => .errC (typeName other)

/-- The mapping loop of `Cons.Map`: apply `fn.Map` to each of the `n` counted
cars in order, linking the results into a fresh chain whose last `Cdr` is nil.
The current cell pointer is `none` when the Go pointer would be nil. -/
def mapLoop (fn : MapFunc) : Nat → Option (Atom × Atom) → MapRes
  | 0, _ => .ok .nilA
  | _ + 1, none => .panicked
  | n + 1, some (car, cdr) =>
    match fnMap fn car with
    | .error e => .errS e
    | .ok car' =>
      match mapLoop fn n (toPtr cdr) with
      | .ok rest => .ok (.cell car' rest)
      | r => r

/-- `Cons.Map` on a non-nil `*Cons` `{car, cdr}` (the typed-nil receiver case
is handled in `Map`): count the cells, then map the cars. -/
def consMap (car cdr : Atom) (fn : MapFunc) : MapRes :=
  match cntLoop cdr 1 with
  | .panickedC => .panicked
  | .errC t => .errS ("skim: map: cannot map a list with a Cdr of " ++ t)
  | .okC n => mapLoop fn n (some (car, cdr))

/-- The element loop of `Vector.Map`. -/
def vmapLoop (fn : MapFunc) : List Atom → Except String (List Atom)
  | [] => .ok []
  | x :: xs =>
    match fnMap fn x with
    | .error e => .error e
    | .ok y =>
      match vmapLoop fn xs with
      | .error e => .error e
      | .ok ys => .ok (y :: ys)

/-- `Vector.Map` on a non-nil vector. -/
def vectorMap (xs : List Atom) (fn : MapFunc) : MapRes :=
  match vmapLoop fn xs with
  | .error e => .errS e
  | .ok ys => .ok (.vec ys)

/-- `skim.Map`: nil input maps to nil; `*Cons` and `Vector` (including their
typed nils: a typed-nil `*Cons` receiver returns the nil atom, a typed-nil
`Vector` returns itself) dispatch to their `Map` methods; everything else is
the cannot-map error. -/
def Map (a : Atom) (fn : MapFunc) : MapRes :=
  match a with
  | .nilA => .ok .nilA
  | .consNil => .ok .nilA
  | .cell car cdr => consMap car cdr fn
  | .vecNil => .ok .vecNil
  | .vec xs => vectorMap xs fn
  | other => .errS ("skim: cannot map " ++ typeName other ++ "; does not implement Mapper")

/-- A proper chain of cars ending in the nil interface (`chain [] = nilA`;
for a non-empty list this is the canonical proper cons chain). -/
def chain : List Atom → Atom
  | [] => .nilA
  | x :: xs => .cell x (chain xs)

/-! ## Evaluator (lisp/interp/context.go `Context.Eval`, second revision) and
closures (lisp/builtins/lambda.go `Lambda.Eval`) -/

/-- The typed errors produced by evaluation, mirroring the `fmt.Errorf` /
`errors.New` messages of the source (see `errMessage`).  `goMsg` carries any
other plain Go error text (such as a runtime fault's message); `outOfFuel` is
the model's stand-in for exhausting the host stack, which the source leaves
unguarded. -/
inductive EvalErr : Type where
  | undefinedSymbol (s : String)
  | cannotCall (tname : String)
  | illFormedCall
  | tooMany
  | tooFew (got expected : Nat)
  | argEval (idx : Nat) (inner : EvalErr)
  | argsNotList
  | goMsg (msg : String)
  | panicMsg (msg : String)
  | outOfFuel

/-- The exact message `fmt` renders for each error. -/
def errMessage : EvalErr → String
  | .undefinedSymbol s => "skim: undefined symbol: " ++ s
  | .cannotCall t => "skim: cannot call type " ++ t
  | .illFormedCall => "skim: ill-formed procedure call"
  | .tooMany => "skim: too many arguments to lambda"
  | .tooFew g e =>
    "skim: too few arguments to lambda; got " ++ toString g ++ ", expected " ++ toString e
  | .argEval i inner =>
    "skim: error evaluating argument #" ++ toString i ++ ": " ++ errMessage inner
  | .argsNotList => "skim: arguments do not form a list"
  | .goMsg m => m
  | .panicMsg m => "PANIC: " ++ m
  | .outOfFuel => "model: recursion budget exhausted"

/-- A Go panic value as seen by `recover()`: either an `error` value or some
other value (kept as its printed form). -/
inductive PanicVal : Type where
  | errVal (e : EvalErr)
  | otherVal (msg : String)

/-- Result of `Context.Eval`: one atom or one error, never both. -/
inductive Res : Type where
  | ok (a : Atom)
  | errR (e : EvalErr)

/-- Outcome of running a callable's body: a normal return, an error return, or
a raised runtime fault that is still propagating. -/
inductive POut : Type where
  | okP (a : Atom)
  | errP (e : EvalErr)
  | panicP (v : PanicVal)

/-- The deferred `recover()` in `Context.Eval`: an `error` panic value becomes
the error itself, anything else becomes the `PANIC: %v` error. -/
def recoverPanic (v : PanicVal) : EvalErr :=
  match v with
  | .errVal e => e
  | .otherVal msg => .panicMsg msg

/-- The call boundary of `Context.Eval`: a panic raised inside the callable is
converted to an ordinary error result with the result atom cleared. -/
def wrapCall (p : POut) : Res :=
  match p with
  | .okP a => .ok a
  | .errP e => .errR e
  | .panicP v => .errR (recoverPanic v)

/-- Behaviour of the opaque primitive callables (`interp.Proc` values are
arbitrary Go functions): each id is given its result on a context and a raw
argument chain (`consNil` standing for the nil `*Cons` of a niladic call). -/
def Prims : Type := Nat → Ctx → Atom → POut

/-- The `a.Cdr` handling of `Context.Eval`: a nil interface (or a typed-nil
`*Cons`, which passes the type assertion and leaves a nil pointer) means a
niladic call; a cell is the raw argument chain; anything else is the
ill-formed-procedure-call error. -/
def argvOf (cdr : Atom) : Except EvalErr Atom :=
  match cdr with
  | .nilA => .ok .consNil
  | .consNil => .ok .consNil
  | .cell a b => .ok (.cell a b)
  | _ => .error .illFormedCall

/-- The runtime fault Go raises on a nil-pointer field access, as `recover()`
sees it (`runtime.Error` satisfies `error`). -/
def nilDerefPanic : PanicVal :=
  .errVal (.goMsg "runtime error: invalid memory address or nil pointer dereference")

/-- The argument loop of `Lambda.Eval`: walk formals and the raw argument
chain in lockstep; a position at or past the formal count fails with the
too-many error before evaluating that argument; each argument expression is
evaluated in a fresh fork of the *caller's* context and bound into the call
frame.  Returns the count of consumed arguments and the extended call frame,
or the first error.  `consNil` is the nil argument-chain pointer. -/
def bindArgs (evalFn : Ctx → Atom → Res) (cctx : Ctx) (args : List String) (nargs : Nat) :
    Atom → Nat → Ctx → Sum (Nat × Ctx) EvalErr
  | .consNil, argi, call => .inl (argi, call)
  | .cell car cdr, argi, call =>
    if argi ≥ nargs then .inr .tooMany
    else
      match evalFn cctx.Fork car with
      | .errR e => .inr (.argEval (argi + 1) e)
      | .ok arg =>
        let call' := call.Bind (args.getD argi "") arg
        match cdr with
        | .nilA => .inl (argi + 1, call')
        | .consNil => .inl (argi + 1, call')
        | .cell _ _ => bindArgs evalFn cctx args nargs cdr (argi + 1) call'
        | _ => .inr .argsNotList
  | _, argi, call => .inl (argi, call)

/-- The body walk of `Lambda.Eval`: `skim.Walk` over the body chain with the
visitor `result, err = call.Eval(a)`, threading the last result.  A typed-nil
cell in the chain faults (the fault propagates to the caller's recover); a
non-walkable tail is `Walk`'s own typed error. -/
def bodyWalk (evalFn : Ctx → Atom → Res) (call : Ctx) : Atom → Atom → POut
  | .nilA, acc => .okP acc
  | .consNil, _ => .panicP nilDerefPanic
  | .cell car cdr, acc =>
    match car, cdr with
    | .nilA, .nilA => .okP acc
    | car, cdr =>
      match evalFn call car with
      | .errR e => .errP e
      | .ok r => bodyWalk evalFn call cdr r
  | other, _ => .errP (.goMsg ("skim: cannot walk " ++ typeName other))

/-- `Lambda.Eval` (lisp/builtins/lambda.go lines 60-99), parameterised by the
ambient evaluator it calls back into (`ctx.Fork().Eval` for arguments,
`call.Eval` for body forms): build the call frame by overlaying the captured
context onto the caller's, bind the arguments, check the arity, then evaluate
each body form in order in the call frame, the last result winning. -/
def lambdaEval (evalFn : Ctx → Atom → Res) (args : List String) (body : Atom)
    (captured : Ctx) (ctx : Ctx) (form : Atom) : POut :=
  let call := captured.Overlay ctx
  match bindArgs evalFn ctx args args.length form 0 call with
  | .inr e => .errP e
  | .inl (argi, call') =>
    if argi ≠ args.length then .errP (.tooFew argi args.length)
    else bodyWalk evalFn call' body .nilA

/-- `Context.Eval` (second revision): a compound form evaluates its `Car`
recursively, requires the result to carry the callable capability (`Proc` or
`*Lambda`), extracts the raw unevaluated argument chain, and invokes the
callable under the panic-recovering call boundary; symbols resolve; everything
else evaluates to itself.  `fuel` bounds the model's recursion depth. -/
def eval (prims : Prims) : Nat → Ctx → Atom → Res
  | 0, _, _ => .errR .outOfFuel
  | fuel + 1, ctx, a =>
    match a with
    | .consNil => .ok .nilA
    | .cell car cdr =>
      match eval prims fuel ctx car with
      | .errR e => .errR e
      | .ok proc =>
        match proc with
        | .prim id =>
          match argvOf cdr with
          | .error e => .errR e
          | .ok argv => wrapCall (prims id ctx argv)
        | .lambda largs body lctx =>
          match argvOf cdr with
          | .error e => .errR e
          | .ok argv =>
            wrapCall (lambdaEval (fun c b => eval prims fuel c b) largs body lctx ctx argv)
        | other => .errR (.cannotCall (typeName other))
    | .sym s =>
      match ctx.Resolve s with
      | none => .errR (.undefinedSymbol s)
      | some v => .ok v
    | a => .ok a

/-- Atoms the evaluator returns unchanged (every variant outside the `*Cons`
and `Symbol` switch arms). -/
def selfEv : Atom → Bool
  | .consNil => false
  | .cell _ _ => false
  | .sym _ => false
  | _ => true

/-- The raw form `Cdr` carrying an argument list `xs` (`nil` interface when
niladic, else a proper chain). -/
def argForm (xs : List Atom) : Atom :=
  match xs with
  | [] => .nilA
  | _ => chain xs

/-- The argument chain as `Lambda.Eval` receives it. -/
def argvChain (xs : List Atom) : Atom :=
  match xs with
  | [] => .consNil
  | _ => chain xs

/-- Sequential `Bind` of formals to values onto a frame. -/
def bindZip (c : Ctx) : List String → List Atom → Ctx
  | k :: ks, v :: vs => bindZip (c.Bind k v) ks vs
  | _, _ => c

/-! ## Reader (lisp/parser/parser.go)

The decoder reads its input exclusively through its stored `readrune` closure,
one codepoint at a time; the embedding therefore takes the rune source as a
parameter `nxt : σ → Option (Char × σ)` (`none` = `io.EOF`).  The byte-level
`readrune` helper requests one byte per `Read` call, so a reader's chunking is
invisible below the rune level; delivery shape enters the model only through
`σ`.  The `%!(EXTRA ...)`-style formatting details of broken `fmt` verbs are
abstracted into the structured error constructors. -/

/-- Go error values the reader produces (and, for `unquoteCtx`, the prototype
reader's `ErrUnquoteContext`, declared so that its absence from every result of
this reader can be stated).  `fuelOut` is the model's recursion budget marker.
`syntaxE` is `*SyntaxError{Line, Col, Err, Desc}`. -/
inductive RErr : Type where
  | eofE
  | unexpectedEOF
  | unclosed (r : Char)
  | badChar (r : Char)
  | unquoteCtx
  | invalidToken (tok : String)
  | cannotClose
  | fuelOut
  | syntaxE (line col : Nat) (cause : RErr) (desc : String)
  deriving DecidableEq

/-- One scope of the decoder: the `open` flag (true for a parenthesised list,
false for the root and for quote shorthands) and the sequence of atoms
appended so far (the cons-cell plumbing of `scope.root/last/tail` is
represented by that sequence; `scope.cons` truncates the trailing sentinel,
the final `d.root.root` keeps it). -/
structure PScope : Type where
  openB : Bool
  items : List Atom

/-- `scope.append`: a nil-ish tip appended to a non-open scope collapses to
the nil interface. -/
def scopeAppend (s : PScope) (tip : Atom) : PScope :=
  let tip := if IsNil tip ∧ s.openB = false then Atom.nilA else tip
  { s with items := s.items ++ [tip] }

/-- `scope.cons()`: the scope's chain with the trailing sentinel truncated
(an empty scope is the bare sentinel cell `&Cons{}`). -/
def scopeCons (s : PScope) : Atom :=
  match s.items with
  | [] => .cell .nilA .nilA
  | items => chain items

/-- The untruncated chain of `d.root.root`: the cell sequence ends with the
trailing sentinel `&Cons{}` the tail pointer still references. -/
def chainSent : List Atom → Atom
  | [] => .cell .nilA .nilA
  | x :: xs => .cell x (chainSent xs)

/-- The decoder state: the unread input, the sticky stream error `d.err`, the
current rune, position counters, the token buffer, and the scope stack with
`d.last` at the head and `d.root` at the tail. -/
structure DecState (σ : Type) : Type where
  input : σ
  derr : Option RErr
  current : Char
  line : Nat
  col : Nat
  buffer : List Char
  scopes : List PScope

/-- The Latin-1 portion of `unicode.IsSpace` (the reader's inputs are treated
as text; the exotic Unicode space classes behave identically for every claim
proved here, since delivery-independence holds for any rune predicate). -/
def isSpaceGo (c : Char) : Bool :=
  c = ' ' || c = '\t' || c = '\n' || c = Char.ofNat 11 || c = Char.ofNat 12 || c = '\r' ||
  c = Char.ofNat 0x85 || c = Char.ofNat 0xA0

/-- `isHorizSpace` (only reachable through `skipSpace(false)`, which no caller
uses; kept for completeness). -/
def isHorizSpace (c : Char) : Bool := c = ' ' || c = '\t' || c = '\r'

/-- `sentinelRunes = "()'\",`;"` and `isSymbolic`. -/
def isSymbolic (c : Char) : Bool :=
  isSpaceGo c || c = '(' || c = ')' || c = '\'' || c = '"' || c = ',' || c = '`' || c = ';'

/-- `decoder.nextRune`: returns the remembered rune and error once the stream
has failed; otherwise pulls one rune (on `io.EOF` the current rune becomes the
zero rune and the error is remembered), updating the line counter on a
newline. -/
def nextRune {σ : Type} (nxt : σ → Option (Char × σ)) (st : DecState σ) :
    (Char × Option RErr) × DecState σ :=
  match st.derr with
  | some e => ((st.current, some e), st)
  | none =>
    match nxt st.input with
    | some (c, rest) =>
      let st := { st with input := rest, current := c }
      let st := if c = '\n' then { st with line := st.line + 1, col := 1 } else st
      ((c, none), st)
    | none =>
      let st := { st with current := Char.ofNat 0, derr := some RErr.eofE }
      ((Char.ofNat 0, some RErr.eofE), st)

/-- `decoder.skip`: read one rune, keep only the error. -/
def skipR {σ : Type} (nxt : σ → Option (Char × σ)) (st : DecState σ) :
    Option RErr × DecState σ :=
  let ((_, e), st) := nextRune nxt st
  (e, st)

/-- `decoder.readUntil` (the `runemap` argument is nil at every call site):
pull runes until one satisfies `oneof` (left as the current rune, unbuffered)
or the stream errors; buffered runes accumulate in `d.buffer`. -/
def readUntil {σ : Type} (nxt : σ → Option (Char × σ)) (oneof : Char → Bool) (buffer : Bool) :
    Nat → DecState σ → Option RErr × DecState σ
  | 0, st => (some RErr.fuelOut, st)
  | fuel + 1, st =>
    let ((r, err), st) := nextRune nxt st
    match err with
    | some e => (some e, st)
    | none =>
      if oneof r then (none, st)
      else
        let st := if buffer then { st with buffer := st.buffer ++ [r] } else st
        readUntil nxt oneof buffer fuel st

/-- `decoder.skipSpace`: only consumes when the current rune already is a
space. -/
def skipSpace {σ : Type} (nxt : σ → Option (Char × σ)) (newlines : Bool) (fuel : Nat)
    (st : DecState σ) : Option RErr × DecState σ :=
  let fn := if newlines then isSpaceGo else isHorizSpace
  if fn st.current then readUntil nxt (fun c => !(fn c)) false fuel st
  else (none, st)

/-- `*SyntaxError` construction: an error that already is a `SyntaxError`
passes through, otherwise it is wrapped with the current position. -/
def syntaxerr {σ : Type} (st : DecState σ) (e : RErr) (desc : String) : RErr :=
  match e with
  | .syntaxE l c cause d => .syntaxE l c cause d
  | e => .syntaxE st.line st.col e desc

/-- Hex digit value, as `readHexCode` decodes it. -/
def hexVal (c : Char) : Option Nat :=
  if 'A' ≤ c ∧ c ≤ 'F' then some (10 + (c.toNat - 'A'.toNat))
  else if 'a' ≤ c ∧ c ≤ 'f' then some (10 + (c.toNat - 'a'.toNat))
  else if '0' ≤ c ∧ c ≤ '9' then some (c.toNat - '0'.toNat)
  else none

/-- `decoder.readHexCode`: exactly `size` ASCII hex digits (a multi-byte rune
is rejected as a bad character, EOF upgrades to unexpected-EOF), accumulated
big-endian. -/
def readHexCode {σ : Type} (nxt : σ → Option (Char × σ)) :
    Nat → Nat → DecState σ → Except RErr Nat × DecState σ
  | 0, acc, st => (.ok acc, st)
  | size + 1, acc, st =>
    let ((r, err), st) := nextRune nxt st
    match err with
    | some e =>
      let e := match e with | RErr.eofE => RErr.unexpectedEOF | e => e
      (.error (syntaxerr st e "expected hex code"), st)
    | none =>
      if r.toNat ≥ 0x80 then (.error (syntaxerr st (.badChar r) "expected hex code"), st)
      else
        match hexVal r with
        | none => (.error (syntaxerr st (.badChar r) "expected hex code"), st)
        | some v => readHexCode nxt size (acc * 16 + v) st

/-- The escape table of `escaped` (applying it twice, as the source does,
changes nothing: its outputs are control characters outside its case list). -/
def escapedGo (c : Char) : Char :=
  if c = '0' then Char.ofNat 0
  else if c = 'a' then Char.ofNat 7
  else if c = 'b' then Char.ofNat 8
  else if c = 'f' then Char.ofNat 12
  else if c = 'n' then Char.ofNat 10
  else if c = 'r' then Char.ofNat 13
  else if c = 't' then Char.ofNat 9
  else if c = 'v' then Char.ofNat 11
  else c

/-- `bytes.Buffer.WriteRune` of an arbitrary code point: invalid scalar values
are encoded as U+FFFD. -/
def charOfCode (v : Nat) : Char :=
  if Nat.isValidChar v then Char.ofNat v else Char.ofNat 0xFFFD

/-- The state-machine labels: the named `nextfunc` continuations of the
decoder. -/
inductive Tag : Type where
  | startT
  | readSyntaxT
  | readListT
  | closeListT
  | readCommentT
  | readLiteralT
  | readStringT
  | readSymbolT
  deriving DecidableEq

/-- One `nextfunc` invocation's outcome: the returned (continuation, error)
pair, or an in-flight panic raised through `must`. -/
inductive StepRes (σ : Type) : Type where
  | ret (nextT : Option Tag) (errO : Option RErr) (st : DecState σ)
  | panicked (e : RErr) (st : DecState σ)

/-- The continuation of the sealing loop once the first seal fired: the
`close` flag has been reset to false, so non-open scopes keep sealing into
their parents. -/
def sealLoopAux : PScope → List PScope → List PScope
  | s, up :: rest =>
    if s.openB = false then sealLoopAux (scopeAppend up (scopeCons s)) rest
    else s :: up :: rest
  | s, [] => [s]

/-- The sealing loop of `decoder.assign`: while the innermost scope's open
flag equals `close` (then always false), seal it into its parent. -/
def sealLoop : Bool → List PScope → List PScope
  | close, s :: up :: rest =>
    if s.openB = close then sealLoopAux (scopeAppend up (scopeCons s)) rest
    else s :: up :: rest
  | _, sc => sc

/-- `decoder.assign(a, close, next, err)`. -/
def assignStep {σ : Type} (a : Option Atom) (close : Bool) (next : Option Tag)
    (err : Option RErr) (st : DecState σ) : StepRes σ :=
  match err with
  | some e => .ret none (some e) st
  | none =>
    if st.scopes.length = 1 ∧ close then .ret none (some RErr.cannotClose) st
    else
      let scopes :=
        match a with
        | some a =>
          match st.scopes with
          | s :: rest => scopeAppend s a :: rest
          | [] => []
        | none => st.scopes
      .ret next none { st with scopes := sealLoop close scopes }

/-- `decoder.start`. -/
def startStep {σ : Type} (nxt : σ → Option (Char × σ)) (st : DecState σ) : StepRes σ :=
  let ((_, err), st) := nextRune nxt st
  match err with
  | some RErr.eofE => .ret none none st
  | some e => .ret (some .readSyntaxT) (some e) st
  | none => .ret (some .readSyntaxT) none st

/-- `decoder.readSyntax`: skip spaces (`must` allows only `io.EOF` through),
quietly stop when the stream already failed, reset the buffer and dispatch on
the current rune. -/
def readSyntaxStep {σ : Type} (nxt : σ → Option (Char × σ)) (fuel : Nat)
    (st : DecState σ) : StepRes σ :=
  match skipSpace nxt true fuel st with
  | (some RErr.eofE, st) => .ret none (some RErr.eofE) st
  | (some e, st) => .panicked e st
  | (none, st) =>
    if st.derr.isSome then .ret none none st
    else
      let st := { st with buffer := [] }
      if st.current = '(' then .ret (some .readListT) none st
      else if st.current = ')' then .ret (some .closeListT) none st
      else if st.current = ';' then .ret (some .readCommentT) none st
      else if st.current = '\'' ∨ st.current = '`' ∨ st.current = ',' then
        .ret (some .readLiteralT) none st
      else if st.current = '"' then .ret (some .readStringT) none st
      else .ret (some .readSymbolT) none st

/-- `decoder.readList`: push an open scope, advance. -/
def readListStep {σ : Type} (nxt : σ → Option (Char × σ)) (st : DecState σ) : StepRes σ :=
  let st := { st with scopes := { openB := true, items := [] } :: st.scopes }
  let (e, st) := skipR nxt st
  .ret (some .readSyntaxT) e st

/-- `decoder.closeList`: advance, require an open scope, forgive EOF, seal. -/
def closeListStep {σ : Type} (nxt : σ → Option (Char × σ)) (st : DecState σ) : StepRes σ :=
  let (err, st) := skipR nxt st
  let lastOpen := match st.scopes with | s :: _ => s.openB | [] => false
  if lastOpen = false then .ret none (some (syntaxerr st (.badChar ')') "")) st
  else
    let err := match err with | some RErr.eofE => none | e => e
    assignStep none true (some .readSyntaxT) err st

/-- `decoder.readComment`: consume to the newline; EOF ends the read quietly. -/
def readCommentStep {σ : Type} (nxt : σ → Option (Char × σ)) (fuel : Nat)
    (st : DecState σ) : StepRes σ :=
  match readUntil nxt (fun c => c = '\n') true fuel st with
  | (some RErr.eofE, st) => .ret none none st
  | (e, st) => .ret (some .readSyntaxT) e st

/-- `decoder.readLiteral`: `'`, `` ` `` and `,` push a quoted (non-open) scope
holding the corresponding symbol and continue — with no check of any
enclosing quasiquote context. -/
def readLiteralStep {σ : Type} (nxt : σ → Option (Char × σ)) (st : DecState σ) : StepRes σ :=
  let sym : Atom :=
    if st.current = '`' then .sym "quasiquote"
    else if st.current = ',' then .sym "unquote"
    else .sym "quote"
  let st := { st with scopes := scopeAppend { openB := false, items := [] } sym :: st.scopes }
  let (e, st) := skipR nxt st
  .ret (some .readSyntaxT) e st

/-- Append an atom to the innermost scope (`d.last.append`). -/
def appendLast {σ : Type} (st : DecState σ) (a : Atom) : DecState σ :=
  match st.scopes with
  | s :: rest => { st with scopes := scopeAppend s a :: rest }
  | [] => st

/-- `decoder.readString`: scan to a quote or backslash; EOF inside the string
is the unclosed-quote syntax error; escapes re-enter `readString`; a closing
quote appends the buffered `String` (EOF afterwards stops quietly).  On an
escape-decoding error the buffered garbage byte is irrelevant: the returned
error aborts the read.  A stream error while reading the escape head is
raised through `must` as a panic. -/
def readStringStep {σ : Type} (nxt : σ → Option (Char × σ)) (fuel : Nat)
    (st : DecState σ) : StepRes σ :=
  match readUntil nxt (fun c => c = '"' ∨ c = '\\') true fuel st with
  | (some RErr.eofE, st) =>
    .ret none (some (syntaxerr st (.unclosed '"') "encountered EOF inside string")) st
  | (some e, st) => .ret none (some e) st
  | (none, st) =>
    if st.current = '\\' then
      let ((r, err), st) := nextRune nxt st
      match err with
      | some e => .panicked e st
      | none =>
        if r = 'x' then
          match readHexCode nxt 2 0 st with
          | (.ok v, st) =>
            .ret (some .readStringT) none { st with buffer := st.buffer ++ [Char.ofNat (v % 256)] }
          | (.error e, st) => .ret (some .readStringT) (some e) st
        else if r = 'u' then
          match readHexCode nxt 4 0 st with
          | (.ok v, st) =>
            .ret (some .readStringT) none { st with buffer := st.buffer ++ [charOfCode v] }
          | (.error e, st) => .ret (some .readStringT) (some e) st
        else if r = 'U' then
          match readHexCode nxt 8 0 st with
          | (.ok v, st) =>
            .ret (some .readStringT) none { st with buffer := st.buffer ++ [charOfCode v] }
          | (.error e, st) => .ret (some .readStringT) (some e) st
        else
          .ret (some .readStringT) none { st with buffer := st.buffer ++ [escapedGo r] }
    else
      match st.scopes with
      | s :: rest =>
        let st := { st with scopes := scopeAppend s (.str (String.mk st.buffer)) :: rest }
        match skipR nxt st with
        | (some RErr.eofE, st) => .ret none none st
        | (e, st) => .ret (some .readSyntaxT) e st
      | [] => .ret none none st

/-- Decimal digit test. -/
def isDigitCh (c : Char) : Bool := '0' ≤ c && c ≤ '9'

/-- ASCII lower-casing. -/
def toLowerCh (c : Char) : Char :=
  if 'A' ≤ c ∧ c ≤ 'Z' then Char.ofNat (c.toNat + 32) else c

/-- Hex digit test (on lower-cased input). -/
def isHexCh (c : Char) : Bool := isDigitCh c || ('a' ≤ c && c ≤ 'f')

/-- Count a leading run satisfying `p`. -/
def spanCount (p : Char → Bool) : List Char → Nat × List Char
  | [] => (0, [])
  | c :: cs =>
    if p c then
      let (n, r) := spanCount p cs
      (n + 1, r)
    else (0, c :: cs)

/-- Digit value in bases up to 36, as `strconv` reads it. -/
def digitVal (c : Char) : Option Nat :=
  if '0' ≤ c ∧ c ≤ '9' then some (c.toNat - '0'.toNat)
  else if 'a' ≤ c ∧ c ≤ 'z' then some (c.toNat - 'a'.toNat + 10)
  else if 'A' ≤ c ∧ c ≤ 'Z' then some (c.toNat - 'A'.toNat + 10)
  else none

/-- The digit loop of `strconv.ParseInt`/`ParseUint` for a fixed base: at
least one digit, all digits below the base. -/
def parseDigits (base : Nat) : List Char → Option Nat → Option Nat
  | [], acc => acc
  | c :: cs, acc =>
    match digitVal c with
    | some v => if v < base then parseDigits base cs (some (acc.getD 0 * base + v)) else none
    | none => none

/-- `strconv.ParseInt(s, base, 64)`: optional sign, digits of the base,
64-bit-signed range check (an out-of-range value is an error to every
call site here). -/
def goParseInt (s : List Char) (base : Nat) : Option Int :=
  let signed : Bool × List Char :=
    match s with
    | '+' :: r => (false, r)
    | '-' :: r => (true, r)
    | r => (false, r)
  match parseDigits base signed.2 none with
  | none => none
  | some v =>
    let i : Int := if signed.1 then -(v : Int) else (v : Int)
    if -(2 ^ 63) ≤ i ∧ i ≤ 2 ^ 63 - 1 then some i else none

/-- Decimal float syntax of `strconv.ParseFloat`: digits, optional fraction,
optional exponent, at least one mantissa digit. -/
def decFloatOk (s : List Char) : Bool :=
  let (n1, r1) := spanCount isDigitCh s
  let fracPart : Nat × List Char :=
    match r1 with
    | '.' :: r => spanCount isDigitCh r
    | _ => (0, r1)
  let n2 := fracPart.1
  let r2 := fracPart.2
  if n1 + n2 = 0 then false
  else
    match r2 with
    | [] => true
    | e :: r =>
      if e = 'e' ∨ e = 'E' then
        let r := match r with | '+' :: rr => rr | '-' :: rr => rr | rr => rr
        let (n3, r3) := spanCount isDigitCh r
        n3 > 0 && r3 = []
      else false

/-- Hex float syntax of `strconv.ParseFloat` after the (lower-cased) `0x`
prefix: hex mantissa with at least one digit, mandatory binary exponent. -/
def hexFloatOk (s : List Char) : Bool :=
  let (n1, r1) := spanCount isHexCh s
  let fracPart : Nat × List Char :=
    match r1 with
    | '.' :: r => spanCount isHexCh r
    | _ => (0, r1)
  let n2 := fracPart.1
  let r2 := fracPart.2
  if n1 + n2 = 0 then false
  else
    match r2 with
    | 'p' :: r =>
      let r := match r with | '+' :: rr => rr | '-' :: rr => rr | rr => rr
      let (n3, r3) := spanCount isDigitCh r
      n3 > 0 && r3 = []
    | _ => false

/-- Acceptance of `strconv.ParseFloat(s, 64)` (the IEEE value itself is
abstracted: the reader stores the accepted token, a finer — hence sound —
representation for every equality proved here): optional sign; `inf` and
`infinity` case-insensitively (`nan` only unsigned); hex floats; decimal
floats. -/
def goParseFloat (s : List Char) : Bool :=
  match s with
  | [] => false
  | _ =>
    let stripped : List Char × Bool :=
      match s with
      | '+' :: r => (r, true)
      | '-' :: r => (r, true)
      | r => (r, false)
    let low := stripped.1.map toLowerCh
    if low = "inf".toList ∨ low = "infinity".toList then true
    else if stripped.2 = false ∧ low = "nan".toList then true
    else
      match low with
      | '0' :: 'x' :: r => hexFloatOk r
      | _ => decFloatOk stripped.1

/-- The heredoc loop inside `readSymbol`: keep consuming symbol-delimited
chunks; once the buffer (with the delimiter trimmed — a local view only) ends
at a line boundary, the content is done; a stream error anywhere else aborts
(EOF upgrading to unexpected-EOF); otherwise the stopping rune is appended to
the buffer and the loop continues. -/
def heredocLoop {σ : Type} (nxt : σ → Option (Char × σ)) (endm : List Char) :
    Nat → DecState σ → Except RErr (List Char) × DecState σ
  | 0, st => (.error RErr.fuelOut, st)
  | fuel + 1, st =>
    let (err, st) := readUntil nxt isSymbolic true fuel st
    let buf := st.buffer
    let eofOrNil : Bool := match err with
      | none => true
      | some RErr.eofE => true
      | some _ => false
    if eofOrNil ∧ endm.isSuffixOf buf then
      let trimmed := buf.take (buf.length - endm.length)
      if trimmed = [] ∨ trimmed.getLast? = some '\n' then (.ok trimmed, st)
      else heredocLoop nxt endm fuel { st with buffer := st.buffer ++ [st.current] }
    else
      match err with
      | some RErr.eofE => (.error RErr.unexpectedEOF, st)
      | some e => (.error e, st)
      | none => heredocLoop nxt endm fuel { st with buffer := st.buffer ++ [st.current] }

/-- The `#`-token, heredoc and plain-symbol tail of `readSymbol` (everything
after the numeric attempts fail). -/
def symbolTailFn {σ : Type} (nxt : σ → Option (Char × σ)) (fuel : Nat)
    (st : DecState σ) : StepRes σ :=
  let txt := st.buffer
  if txt.head? = some '#' then
    if txt = ['#', 't'] ∨ txt = ['#', 'f'] then
      assignStep (some (.bool (txt = ['#', 't']))) false (some .readSyntaxT) none st
    else .ret none (some (syntaxerr st (.invalidToken (String.mk txt)) "")) st
  else if txt.take 3 = ['<', '<', '<'] ∧ st.current = '\n' ∧ 3 < txt.length then
    let endm := txt.drop 3
    let st := { st with buffer := [] }
    match heredocLoop nxt endm fuel st with
    | (.error e, st) => .ret none (some e) st
    | (.ok content, st) =>
      assignStep (some (.str (String.mk content))) false (some .readSyntaxT) none st
  else assignStep (some (.sym (String.mk txt))) false (some .readSyntaxT) none st

/-- The decimal-integer / float fallback of `readSymbol` (label `next`),
including the source's double append of a parsed float. -/
def tryNumFn {σ : Type} (nxt : σ → Option (Char × σ)) (fuel : Nat)
    (st : DecState σ) : StepRes σ :=
  let txt := st.buffer
  match goParseInt txt 10 with
  | some i => assignStep (some (.int i)) false (some .readSyntaxT) none st
  | none =>
    if goParseFloat txt then
      let st := appendLast st (.float (String.mk txt))
      assignStep (some (.float (String.mk txt))) false (some .readSyntaxT) none st
    else symbolTailFn nxt fuel st

/-- The token classification of `readSymbol` once the token text is buffered. -/
def symbolFinish {σ : Type} (nxt : σ → Option (Char × σ)) (fuel : Nat)
    (st : DecState σ) : StepRes σ :=
  let txt := st.buffer
  let n := txt.length
  let zero : Bool := n > 0 && txt.head? = some '0'
  if zero ∧ n > 1 then
    let c1 := txt.getD 1 ' '
    if c1 = 'x' then
      match goParseInt (txt.drop 2) 16 with
      | some i => assignStep (some (.int i)) false (some .readSyntaxT) none st
      | none => tryNumFn nxt fuel st
    else if '0' ≤ c1 ∧ c1.toNat ≤ 7 then
      match goParseInt (txt.drop 1) 8 with
      | some i => assignStep (some (.int i)) false (some .readSyntaxT) none st
      | none => tryNumFn nxt fuel st
    else tryNumFn nxt fuel st
  else if zero then assignStep (some (.int 0)) true (some .readSyntaxT) none st
  else tryNumFn nxt fuel st

/-- `decoder.readSymbol`: buffer the token to the next delimiter, then try in
order: `0x` hex (only when the token starts with `0`; the octal arm compares
`txt[1]` against the raw value 7 and is therefore unreachable), the literal
zero (whose `assign` is called with `close = true`), decimal integers,
floats (`assign` after an extra direct append — the source appends the float
twice), `#t`/`#f` (any other `#` token is the invalid-token error), heredocs,
and finally a plain symbol. -/
def readSymbolStep {σ : Type} (nxt : σ → Option (Char × σ)) (fuel : Nat)
    (st : DecState σ) : StepRes σ :=
  let st := { st with buffer := st.buffer ++ [st.current] }
  match readUntil nxt isSymbolic true fuel st with
  | (some e, st) => .ret none (some e) st
  | (none, st) => symbolFinish nxt fuel st

/-- Dispatch one state-machine label. -/
def step {σ : Type} (nxt : σ → Option (Char × σ)) (fuel : Nat) :
    Tag → DecState σ → StepRes σ
  | .startT, st => startStep nxt st
  | .readSyntaxT, st => readSyntaxStep nxt fuel st
  | .readListT, st => readListStep nxt st
  | .closeListT, st => closeListStep nxt st
  | .readCommentT, st => readCommentStep nxt fuel st
  | .readLiteralT, st => readLiteralStep nxt st
  | .readStringT, st => readStringStep nxt fuel st
  | .readSymbolT, st => readSymbolStep nxt fuel st

/-- Final state of the trampoline of `decoder.read`. -/
inductive RunOut (σ : Type) : Type where
  | done (errO : Option RErr) (st : DecState σ)
  | panicked (e : RErr) (st : DecState σ)

/-- The trampoline: `for next != nil && err == nil { next, err = next() }`. -/
def runLoop {σ : Type} (nxt : σ → Option (Char × σ)) (fuel : Nat) :
    Nat → Tag → DecState σ → RunOut σ
  | 0, _, st => .done (some RErr.fuelOut) st
  | n + 1, tag, st =>
    match step nxt fuel tag st with
    | .panicked e st => .panicked e st
    | .ret none errO st => .done errO st
    | .ret (some t) none st => runLoop nxt fuel n t st
    | .ret (some _) (some e) st => .done (some e) st

/-- Whether `d.last == &d.root`. -/
def atRoot {σ : Type} (st : DecState σ) : Bool := st.scopes.length = 1

/-- Epilogue of `decoder.read`: the root-level EOF is forgiven; the deferred
`panictoerr` recovers a panic into its error and upgrades any surviving
`io.EOF` to unexpected-EOF (a panic bypasses the root-level check). -/
def readFinish {σ : Type} (r : RunOut σ) : Option RErr × DecState σ :=
  match r with
  | .panicked e st =>
    (some (match e with | RErr.eofE => RErr.unexpectedEOF | e => e), st)
  | .done errO st =>
    match errO with
    | some RErr.eofE =>
      if atRoot st then (none, st) else (some RErr.unexpectedEOF, st)
    | e => (e, st)

/-- `decoder.reset`: the initial state. -/
def initState {σ : Type} (input : σ) : DecState σ :=
  { input := input, derr := none, current := Char.ofNat 0, line := 1, col := 0,
    buffer := [], scopes := [{ openB := false, items := [] }] }

/-- `d.root.root` as `decoder.Read` returns it. -/
def rootAtom {σ : Type} (st : DecState σ) : Atom :=
  match st.scopes.getLast? with
  | some s => chainSent s.items
  | none => .nilA

/-- `parser.Read`: reset, run the machine, and either report the error or the
root chain. -/
def ReadGo {σ : Type} (nxt : σ → Option (Char × σ)) (fuel : Nat) (input : σ) :
    Except RErr Atom :=
  match readFinish (runLoop nxt fuel fuel .startT (initState input)) with
  | (some e, _) => .error e
  | (none, st) => .ok (rootAtom st)

/-- The rune source of a single flat character sequence. -/
def flatNext : List Char → Option (Char × List Char)
  | [] => none
  | c :: cs => some (c, cs)

/-- The rune source of a chunked delivery: runes come from the first
non-empty chunk; the stream ends when all chunks are exhausted. -/
def chunkNext : List (List Char) → Option (Char × List (List Char))
  | [] => none
  | [] :: rest => chunkNext rest
  | (c :: cs) :: rest => some (c, cs :: rest)

/-- Reading a flat character sequence. -/
def ReadFlat (fuel : Nat) (s : List Char) : Except RErr Atom := ReadGo flatNext fuel s

/-- Reading a chunked delivery of the same characters. -/
def ReadChunks (fuel : Nat) (cs : List (List Char)) : Except RErr Atom :=
  ReadGo chunkNext fuel cs

/-- A rune source refines the flat character sequence `h` assigns to each of
its states: pulling a rune peels the head of `h`. -/
def SimStream {σ : Type} (nxt : σ → Option (Char × σ)) (h : σ → List Char) : Prop :=
  ∀ s, match nxt s with
    | none => h s = []
    | some (c, s') => h s = c :: h s'

/-- Re-view a decoder state over the flat remaining-characters stream. -/
def mapSt {σ : Type} (h : σ → List Char) (st : DecState σ) : DecState (List Char) :=
  { input := h st.input, derr := st.derr, current := st.current, line := st.line,
    col := st.col, buffer := st.buffer, scopes := st.scopes }

/-- Re-view a step result over the flat stream. -/
def mapRes {σ : Type} (h : σ → List Char) : StepRes σ → StepRes (List Char)
  | .ret t e st => .ret t e (mapSt h st)
  | .panicked e st => .panicked e (mapSt h st)

/-- Re-view a run outcome over the flat stream. -/
def mapRun {σ : Type} (h : σ → List Char) : RunOut σ → RunOut (List Char)
  | .done e st => .done e (mapSt h st)
  | .panicked e st => .panicked e (mapSt h st)

def litScopeOf (c : Char) : PScope :=
  scopeAppend { openB := false, items := [] }
    (if c = '`' then Atom.sym "quasiquote"
      else if c = ',' then Atom.sym "unquote" else Atom.sym "quote")

/-- The continuation label of a non-panicking step result. -/
def StepRes.retTag {σ : Type} : StepRes σ → Option Tag
  | .ret t _ _ => t
  | .panicked _ _ => none

/-- The surfaced error of a step result. -/
def StepRes.retErr {σ : Type} : StepRes σ → Option RErr
  | .ret _ e _ => e
  | .panicked e _ => some e

/-! Characterisation lemmas for `Dup`. -/
theorem tget_tset (t : List (String × Atom)) (k k' : String) (v : Atom) :
    tget (tset t k v) k' = if k = k' then some v else tget t k' := by
  induction t with
  | nil => by_cases h : k = k' <;> simp [tset, tget, h]
  | cons hd tl ih =>
    obtain ⟨hk, hv⟩ := hd
    by_cases h : hk = k
    · subst h
      by_cases h' : hk = k' <;> simp [tset, tget, h']
    · by_cases h' : hk = k'
      · have hne : ¬k = k' := fun e => h (h'.trans e.symm)
        have hne' : ¬k' = k := fun e => hne e.symm
        simp [tset, tget, h, h', hne, hne']
      · simp [tset, tget, h, h', ih]

theorem tget_dupInsert (t acc : List (String × Atom)) (k : String) :
    tget (dupInsert acc t) k = ora (tget acc k) (findLive t k) := by
  induction t generalizing acc with
  | nil => cases h : tget acc k <;> simp [dupInsert, findLive, ora, h]
  | cons hd tl ih =>
    obtain ⟨hk, hv⟩ := hd
    match hvshape : hv with
    | .unbound =>
      by_cases hkk : hk = k <;> simp [dupInsert, findLive, hkk, ih]
    | .nilA | .int _ | .float _ | .sym _ | .str _ | .bool _ | .consNil
    | .cell _ _ | .vecNil | .vec _ | .prim _ | .lambda _ _ _ =>
      cases hacc : tget acc hk with
      | some w =>
        by_cases hkk : hk = k
        · subst hkk
          simp [dupInsert, hacc, findLive, ih, ora, hacc]
        · simp [dupInsert, hacc, findLive, hkk, ih]
      | none =>
        by_cases hkk : hk = k
        · subst hkk
          simp [dupInsert, hacc, findLive, ih, tget_tset, ora, hacc]
        · simp [dupInsert, hacc, findLive, hkk, ih, tget_tset, Ne.symm hkk]

theorem tget_dupLoop :
    ∀ (c : Ctx) (acc : List (String × Atom)) (k : String),
      tget (dupLoop c acc) k = ora (tget acc k) (resolveSkip c k)
  | .nilCtx, acc, k => by
    cases h : tget acc k <;> simp [dupLoop, resolveSkip, ora, h]
  | .frame t u up, acc, k => by
    have ih := tget_dupLoop up (dupInsert acc t) k
    simp only [dupLoop, resolveSkip, ih, tget_dupInsert]
    cases h : tget acc k <;> cases h' : findLive t k <;> simp [ora, h, h']

theorem findLive_ne_unbound (t : List (String × Atom)) (k : String) :
    findLive t k ≠ some .unbound := by
  induction t with
  | nil => simp [findLive]
  | cons hd tl ih =>
    obtain ⟨hk, hv⟩ := hd
    by_cases hkk : hk = k
    · match hv with
      | .unbound => simpa [findLive, hkk] using ih
      | .nilA | .int _ | .float _ | .sym _ | .str _ | .bool _ | .consNil
      | .cell _ _ | .vecNil | .vec _ | .prim _ | .lambda _ _ _ =>
        simp [findLive, hkk]
    · simpa [findLive, hkk] using ih

theorem resolveSkip_ne_unbound :
    ∀ (c : Ctx) (k : String), resolveSkip c k ≠ some .unbound
  | .nilCtx, k => by simp [resolveSkip]
  | .frame t u up, k => by
    have ih := resolveSkip_ne_unbound up k
    simp only [resolveSkip]
    cases h : findLive t k with
    | none => simpa [ora] using ih
    | some v =>
      have hfl := findLive_ne_unbound t k
      rw [h] at hfl
      simpa [ora, h] using fun hh => hfl (by rw [hh])

/-- C1 counterexample: fork `B` from `A` (which binds `x = 1`), `Unbind(B, x)`.
The unbind reports `false` (the symbol is not in `B`'s own table, so no
tombstone is planted) and `Resolve(B, x)` still reports `1` — the claim's
"resolve(B, x) reports not-found" is false on the code. -/
theorem unbind_fork_does_not_occlude :
    (ctxA.Fork.Unbind "x").1 = false ∧
    ((ctxA.Fork.Unbind "x").2.Resolve "x" = some (.int 1)) ∧
    ctxA.Resolve "x" = some (.int 1) := by
  refine ⟨rfl, rfl, rfl⟩

/-- C1 (amended): `Unbind` tombstones a symbol only when the receiver's own
frame table holds it; in the fork scenario it reports `false`, plants nothing,
and `Resolve(B, x)` still reports `1` (as does `Resolve(A, x)`).  When the
receiver's own frame does hold the symbol, `Unbind` plants the tombstone and
resolution from that frame then reports not-found, even though an ancestor may
hold a live binding. -/
theorem unbind_occludes_only_own_bindings :
    (∀ (c : Ctx) (k : String) (v : Atom),
      ((c.Fork.Bind k v).Unbind k).1 = true ∧
      ((c.Fork.Bind k v).Unbind k).2.Resolve k = none) ∧
    ((ctxA.Fork.Unbind "x").1 = false ∧
      (ctxA.Fork.Unbind "x").2.Resolve "x" = some (.int 1) ∧
      ctxA.Resolve "x" = some (.int 1)) := by
  refine ⟨fun c k v => ?_, rfl, rfl, rfl⟩
  simp [Ctx.Fork, Ctx.Bind, Ctx.Unbind, tset, tget, Ctx.Resolve, resolveInTable]

/-- C2 counterexample: in `ctxTomb` the innermost entry for `x` is a tombstone,
so `Resolve` reports not-found — yet `Dup` (flatten) gives the flattened frame
`x = 1` from the ancestor, so the tombstoned name is *not* excluded from the
result. -/
theorem dup_resurrects_tombstoned_symbol :
    tget ctxTomb.Dup.tableOf "x" = some (.int 1) ∧
    ctxTomb.Resolve "x" = none := by
  refine ⟨rfl, rfl⟩

/-- C2 (amended): `Dup` returns a parent-less frame that maps each symbol to
the innermost entry that is not a tombstone, *skipping* tombstoned entries
(so a symbol whose innermost entry is a tombstone reappears with its nearest
live ancestor binding rather than being excluded); tombstone values themselves
are never copied into the result. -/
theorem dup_flattens_skipping_tombstones :
    ∀ (c : Ctx) (k : String),
      tget c.Dup.tableOf k = resolveSkip c k ∧
      c.Dup.upOf = .nilCtx ∧
      tget c.Dup.tableOf k ≠ some .unbound := by
  intro c k
  have h : tget c.Dup.tableOf k = resolveSkip c k := by
    simp [Ctx.Dup, Ctx.tableOf, tget_dupLoop, tget, ora]
  refine ⟨h, by simp [Ctx.Dup, Ctx.upOf], ?_⟩
  rw [h]
  exact resolveSkip_ne_unbound c k

/-- Helper: `Resolve` can never produce the tombstone sentinel itself. -/
theorem resolve_ne_unbound :
    ∀ (c : Ctx) (k : String), c.Resolve k ≠ some .unbound
  | .nilCtx, k => by simp [Ctx.Resolve]
  | .frame t u up, k => by
    have ih := resolve_ne_unbound up k
    simp only [Ctx.Resolve]
    cases htab : tget t k with
    | none => simpa [resolveInTable, htab] using ih
    | some w =>
      match w with
      | .unbound => simp [resolveInTable, htab]
      | .nilA | .int _ | .float _ | .sym _ | .str _ | .bool _ | .consNil
      | .cell _ _ | .vecNil | .vec _ | .prim _ | .lambda _ _ _ =>
        simp [resolveInTable, htab]

/-- C10: resolution never leaks the tombstone sentinel: a found value is never
`Unbound`, and a frame whose own table maps the symbol to `Unbound` resolves it
to not-found from that frame. -/
theorem resolve_never_returns_unbound :
    (∀ (c : Ctx) (k : String) (v : Atom), c.Resolve k = some v → v ≠ .unbound) ∧
    (∀ (t : List (String × Atom)) (u : List (String × Nat)) (up : Ctx) (k : String),
      tget t k = some .unbound → (Ctx.frame t u up).Resolve k = none) := by
  constructor
  · intro c k v h hv
    subst hv
    exact resolve_ne_unbound c k h
  · intro t u up k h
    simp [Ctx.Resolve, resolveInTable, h]

/-- Witness for C10: applying the theorem at a concrete chain and a concrete
tombstoned table. -/
theorem resolve_never_returns_unbound_witness :
    Atom.int 1 ≠ Atom.unbound ∧
    (Ctx.frame [("x", Atom.unbound)] [] Ctx.nilCtx).Resolve "x" = none :=
  ⟨resolve_never_returns_unbound.1 ctxA "x" (Atom.int 1) rfl,
   resolve_never_returns_unbound.2 [("x", Atom.unbound)] [] Ctx.nilCtx "x" rfl⟩

theorem cntLoop_chain (xs : List Atom) : ∀ n, cntLoop (chain xs) n = .okC (n + xs.length) := by
  induction xs with
  | nil => intro n; simp [chain, cntLoop]
  | cons x xs ih => intro n; simp [chain, cntLoop, ih]; omega

theorem toPtr_chain (xs : List Atom) :
    toPtr (chain xs) = match xs with | [] => none | y :: ys => some (y, chain ys) := by
  cases xs <;> simp [chain, toPtr]

theorem mapLoop_chain_tail (f : Atom → Atom) (xs : List Atom) :
    mapLoop (some fun a => .ok (f a)) xs.length (toPtr (chain xs)) =
      .ok (chain (xs.map f)) := by
  induction xs with
  | nil => simp [chain, toPtr, mapLoop]
  | cons y ys ih => simp [chain, mapLoop, fnMap, ih]

theorem mapLoop_chain (f : Atom → Atom) (xs : List Atom) :
    ∀ x, mapLoop (some fun a => .ok (f a)) (xs.length + 1) (some (x, chain xs)) =
      .ok (chain (f x :: xs.map f)) := by
  intro x
  simp [mapLoop, fnMap, mapLoop_chain_tail, chain]

theorem vmapLoop_total (f : Atom → Atom) (ys : List Atom) :
    vmapLoop (some fun a => .ok (f a)) ys = .ok (ys.map f) := by
  induction ys with
  | nil => simp [vmapLoop]
  | cons y ys ih => simp [vmapLoop, fnMap, ih]

/-- C6: over a proper non-empty cons chain or a vector, `Map` with a
never-failing function returns the same kind of container with the cars mapped
element-wise in order (hence equal length); in particular mapping the identity
returns a structurally equal container. -/
theorem map_preserves_shape (f : Atom → Atom) (xs ys : List Atom) (hxs : xs ≠ []) :
    Map (chain xs) (some fun a => .ok (f a)) = .ok (chain (xs.map f)) ∧
    Map (.vec ys) (some fun a => .ok (f a)) = .ok (.vec (ys.map f)) ∧
    Map (chain xs) (some fun a => .ok a) = .ok (chain xs) ∧
    Map (.vec ys) (some fun a => .ok a) = .ok (.vec ys) := by
  obtain ⟨x, xs, rfl⟩ : ∃ y t, xs = y :: t := by
    cases xs with
    | nil => exact absurd rfl hxs
    | cons a b => exact ⟨a, b, rfl⟩
  have hgen : ∀ (g : Atom → Atom),
      Map (chain (x :: xs)) (some fun a => .ok (g a)) = .ok (chain ((x :: xs).map g)) := by
    intro g
    simp only [Map, chain, consMap, cntLoop, cntLoop_chain, List.map]
    have := mapLoop_chain g xs x
    simpa [Nat.add_comm] using this
  have hgenv : ∀ (g : Atom → Atom),
      Map (.vec ys) (some fun a => .ok (g a)) = .ok (.vec (ys.map g)) := by
    intro g
    simp [Map, vectorMap, vmapLoop_total]
  refine ⟨hgen f, hgenv f, ?_, ?_⟩
  · have := hgen (fun a => a)
    simpa using this
  · have := hgenv (fun a => a)
    simpa using this

/-- Witness for C6 at a concrete two-element chain and one-element vector. -/
theorem map_preserves_shape_witness :
    Map (chain [Atom.int 1, Atom.int 2]) (some fun a => .ok a) =
      .ok (chain [Atom.int 1, Atom.int 2]) ∧
    Map (.vec [Atom.int 3]) (some fun a => .ok a) = .ok (.vec [Atom.int 3]) :=
  ⟨(map_preserves_shape (fun a => a) [Atom.int 1, Atom.int 2] [Atom.int 3]
      (by simp)).2.2.1,
   (map_preserves_shape (fun a => a) [Atom.int 1, Atom.int 2] [Atom.int 3]
      (by simp)).2.2.2⟩

/-- C5 counterexample: mapping over the canonical empty-list value `&Cons{}`
*does* invoke `fn` — an always-erroring `fn` makes the map fail, and a constant
`fn` changes the container into a one-cell list of the constant. -/
theorem map_empty_list_invokes_fn :
    Map (.cell .nilA .nilA) (some fun _ => .ok (.int 7)) = .ok (.cell (.int 7) .nilA) ∧
    Map (.cell .nilA .nilA) (some fun _ => .error "invoked") = .errS "invoked" ∧
    Atom.cell (.int 7) .nilA ≠ Atom.cell .nilA .nilA := by
  refine ⟨rfl, rfl, by simp⟩

/-- C5 (amended): mapping over the absent containers — the nil atom, a
typed-nil `*Cons` (which comes back as the nil atom), a typed-nil `Vector` —
never invokes `fn` and returns the stated value unchanged; but mapping over the
canonical empty-list value `&Cons{}` invokes `fn` exactly once, on the nil
`Car`, and returns the one-cell list of whatever `fn` produced. -/
theorem map_absent_vs_empty_list :
    ∀ (fn : MapFunc),
      Map .nilA fn = .ok .nilA ∧
      Map .consNil fn = .ok .nilA ∧
      Map .vecNil fn = .ok .vecNil ∧
      Map (.cell .nilA .nilA) fn =
        (match fnMap fn .nilA with
         | .ok a => .ok (.cell a .nilA)
         | .error e => .errS e) := by
  intro fn
  refine ⟨rfl, rfl, rfl, ?_⟩
  simp only [Map, consMap, cntLoop, mapLoop, toPtr]
  cases h : fnMap fn .nilA <;> simp [h, mapLoop]

theorem eval_selfEv (prims : Prims) (fuel : Nat) (ctx : Ctx) (a : Atom)
    (h : selfEv a = true) : eval prims (fuel + 1) ctx a = .ok a := by
  cases a <;> simp [selfEv] at h <;> simp [eval]

theorem argvOf_argForm (xs : List Atom) : argvOf (argForm xs) = .ok (argvChain xs) := by
  cases xs with
  | nil => rfl
  | cons x t => cases t <;> rfl

theorem bindZip_nil (c : Ctx) (as : List String) : bindZip c as [] = c := by
  cases as <;> rfl

theorem bindZip_cons (c : Ctx) (k : String) (ks : List String) (v : Atom) (vs : List Atom) :
    bindZip c (k :: ks) (v :: vs) = bindZip (c.Bind k v) ks vs := rfl

theorem bindArgs_chain (evalFn : Ctx → Atom → Res) (cctx : Ctx) (args : List String) :
    ∀ (xs : List Atom), xs ≠ [] →
      (∀ a ∈ xs, evalFn cctx.Fork a = .ok a) →
      ∀ (argi : Nat) (call : Ctx), argi + xs.length ≤ args.length →
        bindArgs evalFn cctx args args.length (chain xs) argi call =
          .inl (argi + xs.length, bindZip call (args.drop argi) xs) := by
  intro xs
  induction xs with
  | nil => intro h; exact absurd rfl h
  | cons x t ih =>
    intro _ hev argi call hle
    have hlt : argi < args.length := by simp at hle; omega
    have hnge : ¬(argi ≥ args.length) := by omega
    have hdrop : args.drop argi = args.getD argi "" :: args.drop (argi + 1) := by
      rw [List.getD, List.drop_eq_getElem_cons hlt]
      simp [List.getElem?_eq_getElem hlt]
    have hx : evalFn cctx.Fork x = .ok x := hev x (by simp)
    cases t with
    | nil =>
      simp only [chain, bindArgs, hx]
      rw [if_neg hnge, hdrop, bindZip_cons, bindZip_nil]
      simp
    | cons y ys =>
      have hrec := ih (by simp) (fun a ha => hev a (by simp [ha])) (argi + 1)
        (call.Bind (args.getD argi "") x) (by simp at hle ⊢; omega)
      simp only [chain] at hrec ⊢
      simp only [bindArgs, hx]
      simp only [bindArgs] at hrec
      rw [hrec, hdrop, bindZip_cons]
      have hlen : argi + 1 + (y :: ys).length = argi + (x :: y :: ys).length := by
        simp
        omega
      rw [hlen, if_neg hnge]

/-- C7 counterexample: a closure of one formal invoked with two arguments
fails with the bare "too many arguments to lambda" error, whose message
contains no digits at all — it does not name expected versus actual counts. -/
theorem lambda_too_many_names_no_counts :
    eval (fun _ _ _ => .panicP (.otherVal "unused")) 3 NewContext
        (.cell (.lambda ["a"] (.cell (.int 5) .nilA) NewContext)
          (.cell (.int 1) (.cell (.int 2) .nilA))) = .errR .tooMany ∧
    (errMessage .tooMany).toList.any Char.isDigit = false := by
  exact ⟨rfl, by decide⟩

theorem bindArgs_chain_over (evalFn : Ctx → Atom → Res) (cctx : Ctx) (args : List String) :
    ∀ (xs : List Atom), xs ≠ [] →
      (∀ a ∈ xs, evalFn cctx.Fork a = .ok a) →
      ∀ (argi : Nat) (call : Ctx), args.length < argi + xs.length →
        bindArgs evalFn cctx args args.length (chain xs) argi call = .inr .tooMany := by
  intro xs
  induction xs with
  | nil => intro h; exact absurd rfl h
  | cons x t ih =>
    intro _ hev argi call hgt
    by_cases hge : argi ≥ args.length
    · cases t <;> simp only [chain, bindArgs] <;> rw [if_pos hge]
    · have hx : evalFn cctx.Fork x = .ok x := hev x (by simp)
      cases t with
      | nil => simp at hgt; omega
      | cons y ys =>
        have hrec := ih (by simp) (fun a ha => hev a (by simp [ha])) (argi + 1)
          (call.Bind (args.getD argi "") x) (by simp at hgt ⊢; omega)
        simp only [chain] at hrec ⊢
        simp only [bindArgs, hx]
        simp only [bindArgs] at hrec
        rw [if_neg hge]
        exact hrec

/-- C7 (amended): a closure of `n` formals invoked on a proper chain of `m`
argument atoms (each of which evaluates to itself) fails with the
counts-naming too-few arity error when `m < n`, fails with the countless
"too many arguments to lambda" arity error when `m > n`, and when `m = n`
proceeds to evaluate the body in the call frame (the captured context overlaid
on the caller's, with the formals bound to the argument values in order). -/
theorem lambda_arity (prims : Prims) (fuel : Nat) (args : List String) (body : Atom)
    (lctx ctx : Ctx) (xs : List Atom) (hself : ∀ a ∈ xs, selfEv a = true) :
    (xs.length < args.length →
      eval prims (fuel + 2) ctx (.cell (.lambda args body lctx) (argForm xs)) =
        .errR (.tooFew xs.length args.length)) ∧
    (xs.length > args.length →
      eval prims (fuel + 2) ctx (.cell (.lambda args body lctx) (argForm xs)) =
        .errR .tooMany) ∧
    (xs.length = args.length →
      eval prims (fuel + 2) ctx (.cell (.lambda args body lctx) (argForm xs)) =
        wrapCall (bodyWalk (fun c b => eval prims (fuel + 1) c b)
          (bindZip (lctx.Overlay ctx) args xs) body .nilA)) := by
  have hcar : eval prims (fuel + 1) ctx (.lambda args body lctx) = .ok (.lambda args body lctx) :=
    eval_selfEv prims fuel ctx _ rfl
  have hargok : ∀ a ∈ xs, (fun c b => eval prims (fuel + 1) c b) ctx.Fork a = .ok a := by
    intro a ha
    exact eval_selfEv prims fuel ctx.Fork a (hself a ha)
  have hstep : eval prims (fuel + 2) ctx (.cell (.lambda args body lctx) (argForm xs)) =
      wrapCall (lambdaEval (fun c b => eval prims (fuel + 1) c b) args body lctx ctx
        (argvChain xs)) := by
    simp only [eval, hcar, argvOf_argForm]
  have hbindnil : ∀ (as : List String) (c : Ctx), bindZip c as ([] : List Atom) = c := by
    intro as c
    cases as <;> rfl
  refine ⟨?_, ?_, ?_⟩
  · intro hlt
    rw [hstep]
    cases hxs : xs with
    | nil =>
      subst hxs
      have hne : (0 : Nat) ≠ args.length := by simp at hlt; omega
      simp only [argvChain, lambdaEval, bindArgs]
      rw [if_pos hne]
      rfl
    | cons x t =>
      have hb := bindArgs_chain _ ctx args xs (by simp [hxs]) hargok 0
        (lctx.Overlay ctx) (by omega)
      rw [hxs] at hb
      simp only [hxs, argvChain, lambdaEval, hb]
      rw [if_pos (by rw [hxs] at hlt; simpa using Nat.ne_of_lt (by simpa using hlt))]
      simp [wrapCall]
  · intro hgt
    rw [hstep]
    obtain ⟨x, t, hxs⟩ : ∃ y t, xs = y :: t := by
      cases xs with
      | nil => simp at hgt
      | cons a b => exact ⟨a, b, rfl⟩
    have hb := bindArgs_chain_over _ ctx args xs (by simp [hxs]) hargok 0
      (lctx.Overlay ctx) (by omega)
    rw [hxs] at hb
    simp only [hxs, argvChain, lambdaEval, hb]
    simp [wrapCall]
  · intro heq
    rw [hstep]
    cases hxs : xs with
    | nil =>
      subst hxs
      simp only [argvChain, lambdaEval, bindArgs]
      rw [if_neg (show ¬((0 : Nat) ≠ args.length) from fun hne => hne (by simpa using heq))]
      rw [hbindnil]
    | cons x t =>
      have hb := bindArgs_chain _ ctx args xs (by simp [hxs]) hargok 0
        (lctx.Overlay ctx) (by omega)
      rw [hxs] at hb
      simp only [hxs, argvChain, lambdaEval, hb]
      rw [hxs] at heq
      rw [if_neg (show ¬(0 + (x :: t).length ≠ args.length) from fun hne => hne (by omega))]
      simp [List.drop_zero]

/-- Witness for C7: a closure of one formal invoked with no arguments fails
with the too-few error naming got 0, expected 1. -/
theorem lambda_arity_witness :
    eval (fun _ _ _ => POut.okP .nilA) 2 NewContext
        (.cell (.lambda ["a"] (.cell (.int 5) .nilA) NewContext) (argForm [])) =
      .errR (.tooFew 0 1) :=
  (lambda_arity (fun _ _ _ => POut.okP .nilA) 0 ["a"] (.cell (.int 5) .nilA)
      NewContext NewContext [] (by intro a ha; simp at ha)).1 (by simp)

/-- C8: a runtime fault (panic) raised inside a callable while evaluating a
compound form is intercepted at the call boundary and converted into an
ordinary error result — the error arm of `Res` carries no result atom — so
the fault never escapes `Eval`, whose model is a total function into `Res`
(an `error` panic value becomes that error, any other panic value the
`PANIC: %v` error). -/
theorem eval_converts_callable_panics (prims : Prims) (fuel : Nat) (ctx : Ctx) (id : Nat)
    (cdr argv : Atom) (v : PanicVal)
    (hargv : argvOf cdr = .ok argv)
    (hpanic : prims id ctx argv = .panicP v) :
    eval prims (fuel + 2) ctx (.cell (.prim id) cdr) = .errR (recoverPanic v) := by
  have hcar : eval prims (fuel + 1) ctx (.prim id) = .ok (.prim id) :=
    eval_selfEv prims fuel ctx _ rfl
  simp only [eval, hcar, hargv, hpanic, wrapCall]

/-- Witness for C8: a primitive that panics with the non-error value "boom"
comes back as the ordinary `PANIC: boom` error. -/
theorem eval_converts_callable_panics_witness :
    eval (fun _ _ _ => .panicP (.otherVal "boom")) 2 NewContext (.cell (.prim 0) .nilA) =
      .errR (.panicMsg "boom") :=
  eval_converts_callable_panics (fun _ _ _ => .panicP (.otherVal "boom")) 0 NewContext 0
    .nilA .consNil (.otherVal "boom") rfl rfl

@[simp] theorem mapSt_input {σ : Type} (h : σ → List Char) (st : DecState σ) :
    (mapSt h st).input = h st.input := rfl

@[simp] theorem mapSt_derr {σ : Type} (h : σ → List Char) (st : DecState σ) :
    (mapSt h st).derr = st.derr := rfl

@[simp] theorem mapSt_current {σ : Type} (h : σ → List Char) (st : DecState σ) :
    (mapSt h st).current = st.current := rfl

@[simp] theorem mapSt_line {σ : Type} (h : σ → List Char) (st : DecState σ) :
    (mapSt h st).line = st.line := rfl

@[simp] theorem mapSt_col {σ : Type} (h : σ → List Char) (st : DecState σ) :
    (mapSt h st).col = st.col := rfl

@[simp] theorem mapSt_buffer {σ : Type} (h : σ → List Char) (st : DecState σ) :
    (mapSt h st).buffer = st.buffer := rfl

@[simp] theorem mapSt_scopes {σ : Type} (h : σ → List Char) (st : DecState σ) :
    (mapSt h st).scopes = st.scopes := rfl

@[simp] theorem mapSt_withBuffer {σ : Type} (h : σ → List Char) (st : DecState σ)
    (b : List Char) : mapSt h { st with buffer := b } = { mapSt h st with buffer := b } := rfl

@[simp] theorem mapSt_withScopes {σ : Type} (h : σ → List Char) (st : DecState σ)
    (sc : List PScope) : mapSt h { st with scopes := sc } = { mapSt h st with scopes := sc } := rfl

theorem simStream_none {σ : Type} {nxt : σ → Option (Char × σ)} {h : σ → List Char}
    (hs : SimStream nxt h) {s : σ} (hn : nxt s = none) : h s = [] := by
  have hx := hs s
  rw [hn] at hx
  exact hx

theorem simStream_some {σ : Type} {nxt : σ → Option (Char × σ)} {h : σ → List Char}
    (hs : SimStream nxt h) {s : σ} {c : Char} {s' : σ}
    (hn : nxt s = some (c, s')) : h s = c :: h s' := by
  have hx := hs s
  rw [hn] at hx
  exact hx

theorem nextRune_sim {σ : Type} {nxt : σ → Option (Char × σ)} {h : σ → List Char}
    (hs : SimStream nxt h) (st : DecState σ) :
    nextRune flatNext (mapSt h st) =
      ((nextRune nxt st).1, mapSt h (nextRune nxt st).2) := by
  cases hd : st.derr with
  | some e => simp [nextRune, mapSt, hd]
  | none =>
    cases hn : nxt st.input with
    | none =>
      have hst := simStream_none hs hn
      simp [nextRune, mapSt, hd, hn, flatNext, hst]
    | some p =>
      obtain ⟨c, s'⟩ := p
      have hst := simStream_some hs hn
      by_cases hc : c = '\n' <;>
        simp [nextRune, mapSt, hd, hn, flatNext, hst, hc]

theorem skipR_sim {σ : Type} {nxt : σ → Option (Char × σ)} {h : σ → List Char}
    (hs : SimStream nxt h) (st : DecState σ) :
    skipR flatNext (mapSt h st) = ((skipR nxt st).1, mapSt h (skipR nxt st).2) := by
  have hnr := nextRune_sim hs st
  rcases hre : nextRune nxt st with ⟨⟨r, err⟩, st2⟩
  rw [hre] at hnr
  simp [skipR, hnr, hre]

theorem readUntil_sim {σ : Type} {nxt : σ → Option (Char × σ)} {h : σ → List Char}
    (hs : SimStream nxt h) (oneof : Char → Bool) (buffer : Bool) :
    ∀ (fuel : Nat) (st : DecState σ),
      readUntil flatNext oneof buffer fuel (mapSt h st) =
        ((readUntil nxt oneof buffer fuel st).1, mapSt h (readUntil nxt oneof buffer fuel st).2)
  | 0, st => by simp [readUntil]
  | fuel + 1, st => by
    have hnr := nextRune_sim hs st
    rcases hre : nextRune nxt st with ⟨⟨r, err⟩, st2⟩
    rw [hre] at hnr
    simp only [readUntil, hnr, hre]
    cases err with
    | some e => simp
    | none =>
      by_cases ho : oneof r = true
      · simp [ho]
      · by_cases hbu : buffer = true
        · simpa [ho, hbu, mapSt] using
            readUntil_sim hs oneof buffer fuel { st2 with buffer := st2.buffer ++ [r] }
        · simpa [ho, hbu] using readUntil_sim hs oneof buffer fuel st2

theorem skipSpace_sim {σ : Type} {nxt : σ → Option (Char × σ)} {h : σ → List Char}
    (hs : SimStream nxt h) (newlines : Bool) (fuel : Nat) (st : DecState σ) :
    skipSpace flatNext newlines fuel (mapSt h st) =
      ((skipSpace nxt newlines fuel st).1, mapSt h (skipSpace nxt newlines fuel st).2) := by
  cases newlines with
  | true =>
    by_cases hc : isSpaceGo st.current = true
    · simpa [skipSpace, mapSt, hc] using readUntil_sim hs (fun c => !isSpaceGo c) false fuel st
    · simp [skipSpace, mapSt, hc]
  | false =>
    by_cases hc : isHorizSpace st.current = true
    · simpa [skipSpace, mapSt, hc] using readUntil_sim hs (fun c => !isHorizSpace c) false fuel st
    · simp [skipSpace, mapSt, hc]

theorem syntaxerr_mapSt {σ : Type} (h : σ → List Char) (st : DecState σ) (e : RErr)
    (d : String) : syntaxerr (mapSt h st) e d = syntaxerr st e d := rfl

theorem readHexCode_sim {σ : Type} {nxt : σ → Option (Char × σ)} {h : σ → List Char}
    (hs : SimStream nxt h) :
    ∀ (size acc : Nat) (st : DecState σ),
      readHexCode flatNext size acc (mapSt h st) =
        ((readHexCode nxt size acc st).1, mapSt h (readHexCode nxt size acc st).2)
  | 0, acc, st => by simp [readHexCode]
  | size + 1, acc, st => by
    have hnr := nextRune_sim hs st
    rcases hre : nextRune nxt st with ⟨⟨r, err⟩, st2⟩
    rw [hre] at hnr
    simp only [readHexCode, hnr, hre]
    cases err with
    | some e => cases e <;> simp [syntaxerr_mapSt]
    | none =>
      by_cases hr : r.toNat ≥ 0x80
      · simp [hr, syntaxerr_mapSt]
      · cases hv : hexVal r with
        | none => simp [hr, hv, syntaxerr_mapSt]
        | some v => simp [hr, hv, readHexCode_sim hs size (acc * 16 + v) st2]

theorem heredocLoop_sim {σ : Type} {nxt : σ → Option (Char × σ)} {h : σ → List Char}
    (hs : SimStream nxt h) (endm : List Char) :
    ∀ (fuel : Nat) (st : DecState σ),
      heredocLoop flatNext endm fuel (mapSt h st) =
        ((heredocLoop nxt endm fuel st).1, mapSt h (heredocLoop nxt endm fuel st).2)
  | 0, st => by simp [heredocLoop]
  | fuel + 1, st => by
    have hru := readUntil_sim hs isSymbolic true fuel st
    rcases hre : readUntil nxt isSymbolic true fuel st with ⟨err, st2⟩
    rw [hre] at hru
    simp only [heredocLoop, hru, hre]
    cases err with
    | none =>
      simp only [mapSt_buffer, mapSt_current]
      split
      · split
        · simp
        · simpa using
            heredocLoop_sim hs endm fuel { st2 with buffer := st2.buffer ++ [st2.current] }
      · simpa using
          heredocLoop_sim hs endm fuel { st2 with buffer := st2.buffer ++ [st2.current] }
    | some e =>
      simp only [mapSt_buffer, mapSt_current]
      split
      · split
        · simp
        · simpa using
            heredocLoop_sim hs endm fuel { st2 with buffer := st2.buffer ++ [st2.current] }
      · cases e <;> simp

theorem assignStep_sim {σ : Type} (h : σ → List Char) (a : Option Atom) (close : Bool)
    (next : Option Tag) (err : Option RErr) (st : DecState σ) :
    assignStep a close next err (mapSt h st) = mapRes h (assignStep a close next err st) := by
  cases err with
  | some e => simp [assignStep, mapRes]
  | none =>
    by_cases hl : st.scopes.length = 1 ∧ close = true
    · simp only [assignStep, mapSt_scopes, if_pos hl]
      simp [mapRes]
    · simp only [assignStep, mapSt_scopes, if_neg hl]
      cases a with
      | some a =>
        cases hsc : st.scopes with
        | nil => simp [mapRes, hsc]
        | cons s rest => simp [mapRes, hsc, mapSt_withScopes]
      | none => simp [mapRes, mapSt_withScopes]

theorem appendLast_sim {σ : Type} (h : σ → List Char) (st : DecState σ) (a : Atom) :
    appendLast (mapSt h st) a = mapSt h (appendLast st a) := by
  cases hsc : st.scopes with
  | nil => simp [appendLast, hsc]
  | cons s rest => simp [appendLast, hsc]

theorem startStep_sim {σ : Type} {nxt : σ → Option (Char × σ)} {h : σ → List Char}
    (hs : SimStream nxt h) (st : DecState σ) :
    startStep flatNext (mapSt h st) = mapRes h (startStep nxt st) := by
  have hnr := nextRune_sim hs st
  rcases hre : nextRune nxt st with ⟨⟨r, err⟩, st2⟩
  rw [hre] at hnr
  simp only [startStep, hnr, hre]
  cases err with
  | some e => cases e <;> simp [mapRes]
  | none => simp [mapRes]

theorem readSyntaxStep_sim {σ : Type} {nxt : σ → Option (Char × σ)} {h : σ → List Char}
    (hs : SimStream nxt h) (fuel : Nat) (st : DecState σ) :
    readSyntaxStep flatNext fuel (mapSt h st) = mapRes h (readSyntaxStep nxt fuel st) := by
  have hss := skipSpace_sim hs true fuel st
  rcases hre : skipSpace nxt true fuel st with ⟨err, st2⟩
  rw [hre] at hss
  simp only [readSyntaxStep, hss, hre]
  cases err with
  | some e => cases e <;> simp [mapRes]
  | none =>
    by_cases hd : st2.derr.isSome = true
    · simp [hd, mapRes]
    · simp only [mapSt_derr, mapSt_current, mapSt_withBuffer, hd]
      split_ifs <;> simp [mapRes]

theorem readListStep_sim {σ : Type} {nxt : σ → Option (Char × σ)} {h : σ → List Char}
    (hs : SimStream nxt h) (st : DecState σ) :
    readListStep flatNext (mapSt h st) = mapRes h (readListStep nxt st) := by
  have hsk := skipR_sim hs { st with scopes := { openB := true, items := [] } :: st.scopes }
  rcases hre : skipR nxt { st with scopes := { openB := true, items := [] } :: st.scopes }
    with ⟨e, st2⟩
  rw [hre] at hsk
  simp only [readListStep, mapSt_scopes, ← mapSt_withScopes, hsk, hre]
  simp [mapRes]

theorem readLiteralStep_sim {σ : Type} {nxt : σ → Option (Char × σ)} {h : σ → List Char}
    (hs : SimStream nxt h) (st : DecState σ) :
    readLiteralStep flatNext (mapSt h st) = mapRes h (readLiteralStep nxt st) := by
  have hsk := skipR_sim hs { st with scopes := litScopeOf st.current :: st.scopes }
  rcases hre : skipR nxt { st with scopes := litScopeOf st.current :: st.scopes } with ⟨e, st2⟩
  rw [hre] at hsk
  simp only [litScopeOf] at hsk hre
  simp only [mapSt] at hsk
  simp [readLiteralStep, mapRes, mapSt, hsk, hre]

theorem closeListStep_sim {σ : Type} {nxt : σ → Option (Char × σ)} {h : σ → List Char}
    (hs : SimStream nxt h) (st : DecState σ) :
    closeListStep flatNext (mapSt h st) = mapRes h (closeListStep nxt st) := by
  have hsk := skipR_sim hs st
  rcases hre : skipR nxt st with ⟨err, st2⟩
  rw [hre] at hsk
  simp only [closeListStep, hsk, hre, mapSt_scopes]
  by_cases hop : (match st2.scopes with | s :: _ => s.openB | [] => false) = false
  · simp [hop, mapRes, syntaxerr_mapSt]
  · simp only [hop]
    cases err with
    | none => simpa [hop] using assignStep_sim h none true (some .readSyntaxT) none st2
    | some e =>
      cases e <;>
        simpa [hop] using assignStep_sim h none true (some .readSyntaxT) _ st2

theorem readCommentStep_sim {σ : Type} {nxt : σ → Option (Char × σ)} {h : σ → List Char}
    (hs : SimStream nxt h) (fuel : Nat) (st : DecState σ) :
    readCommentStep flatNext fuel (mapSt h st) = mapRes h (readCommentStep nxt fuel st) := by
  have hru := readUntil_sim hs (fun c => c = '\n') true fuel st
  rcases hre : readUntil nxt (fun c => c = '\n') true fuel st with ⟨err, st2⟩
  rw [hre] at hru
  simp only [readCommentStep, hru, hre]
  cases err with
  | some e => cases e <;> simp [mapRes]
  | none => simp [mapRes]

theorem readStringStep_sim {σ : Type} {nxt : σ → Option (Char × σ)} {h : σ → List Char}
    (hs : SimStream nxt h) (fuel : Nat) (st : DecState σ) :
    readStringStep flatNext fuel (mapSt h st) = mapRes h (readStringStep nxt fuel st) := by
  have hru := readUntil_sim hs (fun c => c = '"' ∨ c = '\\') true fuel st
  rcases hre : readUntil nxt (fun c => c = '"' ∨ c = '\\') true fuel st with ⟨err, st2⟩
  rw [hre] at hru
  simp only [readStringStep, hru, hre]
  cases err with
  | some e => cases e <;> simp [mapRes, syntaxerr_mapSt]
  | none =>
    by_cases hc : st2.current = '\\'
    · have hnr := nextRune_sim hs st2
      rcases hnre : nextRune nxt st2 with ⟨⟨r, err2⟩, st3⟩
      rw [hnre] at hnr
      simp only [mapSt_current, hc, if_pos, hnr, hnre]
      cases err2 with
      | some e => simp [mapRes]
      | none =>
        by_cases hx : r = 'x'
        · have hh := readHexCode_sim hs 2 0 st3
          rcases hhe : readHexCode nxt 2 0 st3 with ⟨res, st4⟩
          rw [hhe] at hh
          simp only [hx, hh, hhe]
          cases res <;> simp [mapRes]
        · by_cases hu : r = 'u'
          · have hh := readHexCode_sim hs 4 0 st3
            rcases hhe : readHexCode nxt 4 0 st3 with ⟨res, st4⟩
            rw [hhe] at hh
            simp only [hx, hu, hh, hhe]
            cases res <;> simp [mapRes]
          · by_cases hU : r = 'U'
            · have hh := readHexCode_sim hs 8 0 st3
              rcases hhe : readHexCode nxt 8 0 st3 with ⟨res, st4⟩
              rw [hhe] at hh
              simp only [hx, hu, hU, hh, hhe]
              cases res <;> simp [mapRes]
            · simp [hx, hu, hU, mapRes]
    · cases hsc : st2.scopes with
      | nil => simp [hc, hsc, mapRes]
      | cons s rest =>
        have hsk := skipR_sim hs
          { st2 with scopes := scopeAppend s (.str (String.mk st2.buffer)) :: rest }
        rcases hske : skipR nxt
            { st2 with scopes := scopeAppend s (.str (String.mk st2.buffer)) :: rest }
          with ⟨e2, st3⟩
        rw [hske] at hsk
        simp only [mapSt] at hsk
        cases e2 with
        | none => simp [hc, hsc, mapRes, mapSt, hsk, hske]
        | some e2v => cases e2v <;> simp [hc, hsc, mapRes, mapSt, hsk, hske]

theorem symbolTailFn_sim {σ : Type} {nxt : σ → Option (Char × σ)} {h : σ → List Char}
    (hs : SimStream nxt h) (fuel : Nat) (st : DecState σ) :
    symbolTailFn flatNext fuel (mapSt h st) = mapRes h (symbolTailFn nxt fuel st) := by
  simp only [symbolTailFn, mapSt_buffer, mapSt_current]
  by_cases hH : st.buffer.head? = some '#'
  · by_cases htf : st.buffer = ['#', 't'] ∨ st.buffer = ['#', 'f']
    · simp only [if_pos hH, if_pos htf]
      exact assignStep_sim h _ false (some .readSyntaxT) none st
    · simp only [if_pos hH, if_neg htf]
      simp [mapRes, syntaxerr_mapSt]
  · by_cases hhd : st.buffer.take 3 = ['<', '<', '<'] ∧ st.current = '\n' ∧ 3 < st.buffer.length
    · simp only [if_neg hH, if_pos hhd]
      have hhl := heredocLoop_sim hs (st.buffer.drop 3) fuel { st with buffer := [] }
      rcases hhe : heredocLoop nxt (st.buffer.drop 3) fuel { st with buffer := [] }
        with ⟨res, st2⟩
      rw [hhe] at hhl
      simp only [mapSt_withBuffer, mapSt_current] at hhl
      rw [hhl]
      cases res with
      | error e => simp [mapRes]
      | ok content => exact assignStep_sim h _ false (some .readSyntaxT) none st2
    · simp only [if_neg hH, if_neg hhd]
      exact assignStep_sim h _ false (some .readSyntaxT) none st

theorem tryNumFn_sim {σ : Type} {nxt : σ → Option (Char × σ)} {h : σ → List Char}
    (hs : SimStream nxt h) (fuel : Nat) (st : DecState σ) :
    tryNumFn flatNext fuel (mapSt h st) = mapRes h (tryNumFn nxt fuel st) := by
  simp only [tryNumFn, mapSt_buffer]
  cases hgi : goParseInt st.buffer 10 with
  | some i =>
    simp only [hgi]
    exact assignStep_sim h _ false (some .readSyntaxT) none st
  | none =>
    simp only [hgi]
    by_cases hgf : goParseFloat st.buffer = true
    · rw [if_pos hgf, if_pos hgf, appendLast_sim]
      exact assignStep_sim h _ false (some .readSyntaxT) none
        (appendLast st (.float (String.mk st.buffer)))
    · rw [if_neg hgf, if_neg hgf]
      exact symbolTailFn_sim hs fuel st

theorem symbolFinish_sim {σ : Type} {nxt : σ → Option (Char × σ)} {h : σ → List Char}
    (hs : SimStream nxt h) (fuel : Nat) (st : DecState σ) :
    symbolFinish flatNext fuel (mapSt h st) = mapRes h (symbolFinish nxt fuel st) := by
  simp only [symbolFinish, mapSt_buffer]
  split
  · split
    · cases hgi : goParseInt (st.buffer.drop 2) 16 with
      | some i =>
        simp only [hgi]
        exact assignStep_sim h _ false (some .readSyntaxT) none st
      | none =>
        simp only [hgi]
        exact tryNumFn_sim hs fuel st
    · split
      · cases hgi : goParseInt (st.buffer.drop 1) 8 with
        | some i =>
          simp only [hgi]
          exact assignStep_sim h _ false (some .readSyntaxT) none st
        | none =>
          simp only [hgi]
          exact tryNumFn_sim hs fuel st
      · exact tryNumFn_sim hs fuel st
  · split
    · exact assignStep_sim h _ true (some .readSyntaxT) none st
    · exact tryNumFn_sim hs fuel st

theorem readSymbolStep_sim {σ : Type} {nxt : σ → Option (Char × σ)} {h : σ → List Char}
    (hs : SimStream nxt h) (fuel : Nat) (st : DecState σ) :
    readSymbolStep flatNext fuel (mapSt h st) = mapRes h (readSymbolStep nxt fuel st) := by
  have hru := readUntil_sim hs isSymbolic true fuel { st with buffer := st.buffer ++ [st.current] }
  rcases hre : readUntil nxt isSymbolic true fuel { st with buffer := st.buffer ++ [st.current] }
    with ⟨err, st2⟩
  rw [hre] at hru
  simp only [mapSt] at hru
  simp only [readSymbolStep, mapSt, hru, hre]
  cases err with
  | some e => simp [mapRes, mapSt]
  | none => exact symbolFinish_sim hs fuel st2

theorem step_sim {σ : Type} {nxt : σ → Option (Char × σ)} {h : σ → List Char}
    (hs : SimStream nxt h) (fuel : Nat) (tag : Tag) (st : DecState σ) :
    step flatNext fuel tag (mapSt h st) = mapRes h (step nxt fuel tag st) := by
  cases tag with
  | startT => exact startStep_sim hs st
  | readSyntaxT => exact readSyntaxStep_sim hs fuel st
  | readListT => exact readListStep_sim hs st
  | closeListT => exact closeListStep_sim hs st
  | readCommentT => exact readCommentStep_sim hs fuel st
  | readLiteralT => exact readLiteralStep_sim hs st
  | readStringT => exact readStringStep_sim hs fuel st
  | readSymbolT => exact readSymbolStep_sim hs fuel st

theorem runLoop_sim {σ : Type} {nxt : σ → Option (Char × σ)} {h : σ → List Char}
    (hs : SimStream nxt h) (fuel : Nat) :
    ∀ (n : Nat) (tag : Tag) (st : DecState σ),
      runLoop flatNext fuel n tag (mapSt h st) = mapRun h (runLoop nxt fuel n tag st)
  | 0, tag, st => by simp [runLoop, mapRun]
  | n + 1, tag, st => by
    have hst := step_sim hs fuel tag st
    cases hse : step nxt fuel tag st with
    | panicked e st2 =>
      rw [hse] at hst
      simp [runLoop, hst, hse, mapRes, mapRun]
    | ret t eO st2 =>
      rw [hse] at hst
      cases t with
      | none => simp [runLoop, hst, hse, mapRes, mapRun]
      | some tg =>
        cases eO with
        | none =>
          simp only [runLoop, hst, hse, mapRes]
          exact runLoop_sim hs fuel n tg st2
        | some e => simp [runLoop, hst, hse, mapRes, mapRun]

theorem readFinish_mapRun {σ : Type} (h : σ → List Char) (r : RunOut σ) :
    readFinish (mapRun h r) = ((readFinish r).1, mapSt h (readFinish r).2) := by
  cases r with
  | panicked e st => cases e <;> simp [readFinish, mapRun]
  | done eO st =>
    cases eO with
    | none => simp [readFinish, mapRun]
    | some e =>
      cases e <;>
        simp only [readFinish, mapRun, atRoot, mapSt_scopes] <;>
        first
          | rfl
          | (split_ifs <;> rfl)

theorem ReadGo_sim {σ : Type} {nxt : σ → Option (Char × σ)} {h : σ → List Char}
    (hs : SimStream nxt h) (fuel : Nat) (input : σ) :
    ReadGo flatNext fuel (h input) = ReadGo nxt fuel input := by
  have hrl := runLoop_sim hs fuel fuel .startT (initState input)
  have hinit : mapSt h (initState input) = initState (h input) := rfl
  rw [hinit] at hrl
  rcases hR : readFinish (runLoop nxt fuel fuel .startT (initState input)) with ⟨eO, stF⟩
  have hrf := readFinish_mapRun h (runLoop nxt fuel fuel .startT (initState input))
  rw [hR, ← hrl] at hrf
  simp only [ReadGo, hrf, hR]
  cases eO with
  | some e => rfl
  | none => rfl

/-- The chunked delivery refines the flat concatenation of its chunks. -/
theorem chunk_simStream : SimStream chunkNext List.flatten := by
  intro s
  induction s with
  | nil => simp [chunkNext]
  | cons c rest ih =>
    cases c with
    | nil =>
      cases hcn : chunkNext rest with
      | none =>
        simp [hcn] at ih
        simp [chunkNext, hcn]
        exact ih
      | some p =>
        obtain ⟨c', s'⟩ := p
        rw [hcn] at ih
        simp only [] at ih
        simp [chunkNext, hcn]
        exact ih
    | cons ch ct => simp [chunkNext]

theorem flatten_singletons (s : List Char) : (s.map (fun c => [c])).flatten = s := by
  induction s with
  | nil => rfl
  | cons c cs ih => simp [ih]

/-- C4: delivery independence of the reader: reading a chunked stream equals
reading the flat concatenation of its chunks — for every fuel and every
chunking, and in particular for the one-chunk and the one-character-at-a-time
deliveries of the same text; the result (root chain on success, error
otherwise) is a function of the character sequence alone. -/
theorem read_delivery_independent (fuel : Nat) (cs : List (List Char)) (s : List Char) :
    ReadChunks fuel cs = ReadFlat fuel cs.flatten ∧
    ReadChunks fuel [s] = ReadFlat fuel s ∧
    ReadChunks fuel (s.map (fun c => [c])) = ReadFlat fuel s := by
  refine ⟨(ReadGo_sim chunk_simStream fuel cs).symm, ?_, ?_⟩
  · have h0 := (ReadGo_sim chunk_simStream fuel [s]).symm
    have h1 : List.flatten [s] = s := by simp
    rw [h1] at h0
    exact h0
  · have h0 := (ReadGo_sim chunk_simStream fuel (s.map (fun c => [c]))).symm
    rw [flatten_singletons] at h0
    exact h0

/-- C3 counterexample: by the claim, an unquote shorthand outside any
enclosing quasiquote must fail with the unquote-context syntax error and can
never parse; the reader parses top-level `,x` successfully into the root
chain holding `(unquote x)`. -/
theorem unquote_outside_quasiquote_parses :
    ReadFlat 100 (",x\n".toList) =
      .ok (.cell (.cell (.sym "unquote") (.cell (.sym "x") .nilA))
        (.cell .nilA .nilA)) := by
  rfl

/-- C3 (amended): the current reader applies no quasiquote-context check to
the unquote shorthand: `,x` outside any quasiquote parses successfully into
an `(unquote x)` form (and the same shorthand inside a quasiquote parses as
before), and for every state — whatever the enclosing scopes — the literal
step hands control to `readSyntax` and can surface only the stream-end
error, never the prototype reader's unquote-context error. -/
theorem unquote_no_context_check :
    ReadFlat 100 (",x\n".toList) =
      .ok (.cell (.cell (.sym "unquote") (.cell (.sym "x") .nilA))
        (.cell .nilA .nilA)) ∧
    ReadFlat 100 ("`(,x)\n".toList) =
      .ok (.cell (.cell (.sym "quasiquote")
            (.cell (.cell (.cell (.sym "unquote") (.cell (.sym "x") .nilA)) .nilA) .nilA))
          (.cell .nilA .nilA)) ∧
    ∀ {σ : Type} (nxt : σ → Option (Char × σ)) (st : DecState σ),
      st.derr = none ∨ st.derr = some RErr.eofE →
        (readLiteralStep nxt st).retTag = some Tag.readSyntaxT ∧
        ((readLiteralStep nxt st).retErr = none ∨
          (readLiteralStep nxt st).retErr = some RErr.eofE) := by
  refine ⟨rfl, rfl, ?_⟩
  intro σ nxt st hd
  rcases hd with hd | hd
  · cases hn : nxt st.input with
    | some p =>
      obtain ⟨c, rest⟩ := p
      by_cases hc : c = '\n' <;>
        simp [readLiteralStep, skipR, nextRune, hd, hn, hc, StepRes.retTag, StepRes.retErr]
    | none =>
      simp [readLiteralStep, skipR, nextRune, hd, hn, StepRes.retTag, StepRes.retErr]
  · simp [readLiteralStep, skipR, nextRune, hd, StepRes.retTag, StepRes.retErr]

/-- Witness for C3 (amended): the literal step applied at a concrete state
(the fresh state over a one-character input) continues to `readSyntax`
surfacing no error. -/
theorem unquote_no_context_check_witness :
    (readLiteralStep flatNext (initState (",".toList))).retTag = some Tag.readSyntaxT ∧
      ((readLiteralStep flatNext (initState (",".toList))).retErr = none ∨
        (readLiteralStep flatNext (initState (",".toList))).retErr = some RErr.eofE) :=
  unquote_no_context_check.2.2 flatNext (initState (",".toList)) (Or.inl rfl)

/-- C9: the one-element list holding the absent value is the same constructed
value as `List` applied to no elements — the canonical empty list `&Cons{}` —
`IsNil` reports it empty, and `Walk` over it completes without ever invoking
the visitor (even an always-failing visitor is never called). -/
theorem list_of_nil_is_empty_list :
    list [Atom.nilA] = .cell .nilA .nilA ∧
    list [Atom.nilA] = list [] ∧
    IsNil (list [Atom.nilA]) = true ∧
    (∀ (fn : Atom → Option String), Walk (list [Atom.nilA]) fn = .ok) ∧
    Walk (list [Atom.nilA]) (fun _ => some "visited") = .ok := by
  exact ⟨rfl, rfl, rfl, fun fn => rfl, rfl⟩

end Skim
